import Mathlib

/-!
Shallow embedding of the `safer_ffi` header-generation engine
(`src/headers/_mod.rs`) and proofs about its specification.

The embedding models:
* the `Builder` configuration record and its defaulting behaviour,
* the four-phase pipeline `generate_with_definer`
  (banner, prelude, body, epilogue),
* the `HashSetDefiner` (output sink plus dedup ledger) and the
  `define_self` protocol for composite types,
* the `__define_fn__` helpers (`name`, `arg`, `ret`) that render a
  function declaration,
* guard-name and library-name resolution from the environment.

The output sink is modelled as a list of tagged text chunks together with
an optional write budget: a budget of `some b` makes the `b`-th subsequent
write fail with an I/O error, which lets us reason about behaviour under
write failures.  Recursive type definition (`define_self`) is modelled
with an explicit fuel parameter; in the source the recursion terminates
via the dedup ledger, and every theorem below holds for every fuel value.

Pieces of the repository that are referenced but not part of the given
source file (the per-type `CType` implementations, the `languages`
backends, the text templates and the macro-generated registration
closures) are modelled from the spec; each such definition carries a
doc comment starting with `Modelled from the spec:`.
-/

namespace SaferFfi

/-- Target language of the generated headers (`enum Language`).  The
`Python` variant is behind the non-default `python-headers` cargo feature
and is therefore not part of the embedded surface. -/
inductive Language where
  | c
  | csharp
deriving DecidableEq

/-- `enum NamingConvention` (constructor names adjusted to Lean style):
`Default`, `Suffix(String)`, `Prefix(String)`, `Custom(fn(&str) -> String)`. -/
inductive NamingConvention where
  | defaultConv
  | suffixConv (s : String)
  | prefixConv (s : String)
  | customConv (f : String → String)

/-- Modelled from the spec: the missing per-type `CType` implementations
are represented by the spec's tagged-variant type layout descriptor
(§3: Primitive, Pointer-to, FixedArray, Composite).  A composite refers
to its field list through an identity looked up in a `TypeEnv`, which
lets the embedding express mutually and self-referential composites
through pointer indirection. -/
inductive CTy where
  | prim (spelling : String) (marshaler : Option String)
  | ptr (isConst : Bool) (pointee : CTy)
  | arr (elem : CTy) (len : Nat)
  | composite (id : String)
deriving DecidableEq

/-- Modelled from the spec: the type environment mapping each composite
identity to its (field name, field type) list.  In the source this
information lives inside each type's `CType::define_self` impl. -/
abbrev TypeEnv := List (String × List (String × CTy))

/-- Modelled from the spec (§3, FunctionDescriptor): an exported function
descriptor `{ name, documentation, arguments, return_type }`.  In the
source this is the `FfiExport { name, gen_def }` registration entry whose
macro-generated `gen_def` closure carries the descriptor data. -/
structure FfiExport where
  name : String
  docs : List String
  args : List (String × CTy)
  ret : CTy
deriving DecidableEq

/-- The optional configuration fields of `Builder` (guard, banner,
language, naming_convention, stable_header), all defaulted at use sites
exactly as in the source. -/
structure Config where
  guard : Option String := none
  banner : Option String := none
  language : Option Language := none
  namingConvention : Option NamingConvention := none
  stableHeader : Option Bool := none

/-- The two environment variables read by `Builder::lib_name`. -/
structure Env where
  crateName : Option String := none
  pkgName : Option String := none

/-- Errors that can abort a generation run: a failed write to the output
sink (`io::Error`), or the `expect` panic of `Builder::lib_name` when both
environment variables are missing. -/
inductive GenError where
  | ioError
  | configError
deriving DecidableEq

/-- Tag identifying the origin of one chunk written to the sink. -/
inductive Tag where
  | bannerTag
  | preludeTag
  | declTag (fname : String)
  | typedefTag (id : String)
  | epilogueTag
deriving DecidableEq

/-- The four pipeline phases of `generate_with_definer`. -/
inductive Phase where
  | bannerP
  | preludeP
  | bodyP
  | epilogueP
deriving DecidableEq

/-- The phase a given chunk tag belongs to: both function declarations and
composite type definitions are written during the body phase. -/
def phaseOf : Tag → Phase
  | Tag.bannerTag => Phase.bannerP
  | Tag.preludeTag => Phase.preludeP
  | Tag.declTag _ => Phase.bodyP
  | Tag.typedefTag _ => Phase.bodyP
  | Tag.epilogueTag => Phase.epilogueP

/-- One chunk written to the output sink: its tag and its text. -/
abbrev Chunk := Tag × String

/-- The `HashSetDefiner` state: the output sink (list of written chunks
plus an optional remaining write budget used to model I/O failures) and
the `defines_set` dedup ledger of already-defined composite identities. -/
structure DState where
  chunks : List Chunk
  budget : Option Nat
  defined : List String
deriving DecidableEq

/-- A state transformer over the definer, returning the new state and an
optional error (mirroring `io::Result<()>` with early `?` returns). -/
abbrev Step := DState → DState × Option GenError

/-- Replace the write budget of a definer state. -/
def DState.withBudget (st : DState) (b : Option Nat) : DState :=
  { st with budget := b }

/-- A single `write!`/`writeln!` to the sink: succeeds (appending the
chunk) unless the remaining write budget is exhausted, in which case it
fails with an I/O error and writes nothing. -/
def emitChunk (t : Tag) (txt : String) : Step := fun st =>
  match st.budget with
  | none => ({ st with chunks := st.chunks ++ [(t, txt)] }, none)
  | some 0 => (st, some GenError.ioError)
  | some (b + 1) =>
      ({ st with chunks := st.chunks ++ [(t, txt)], budget := some b }, none)

/-- Insert a composite identity into the dedup ledger
(`defines_set.insert`). -/
def markDefined (id : String) : Step := fun st =>
  ({ st with defined := id :: st.defined }, none)

/-- The no-op step (`Ok(())`). -/
def idStep : Step := fun st => (st, none)

/-- Sequencing with early return on error, mirroring the `?` operator. -/
def Step.seq (f g : Step) : Step := fun st =>
  match f st with
  | (st', none) => g st'
  | (st', some e) => (st', some e)

/-- Run a step for each list element in order, stopping at the first
error (`try_for_each`). -/
def stepList {α : Type} (f : α → Step) : List α → Step
  | [] => idStep
  | x :: xs => Step.seq (f x) (stepList f xs)

/-- First-match association-list lookup (used for the type environment
and as the specification of `BTreeMap` lookups). -/
def lookupKey {α : Type} : List (String × α) → String → Option α
  | [], _ => none
  | p :: rest, k => if p.1 = k then some p.2 else lookupKey rest k

/-- Embedding of Rust `str::trim` on the underlying character list. -/
def strTrim (s : String) : String :=
  String.mk ((((s.data.dropWhile Char.isWhitespace).reverse).dropWhile
    Char.isWhitespace).reverse)

/-- Embedding of Rust `str::ends_with` for a string pattern. -/
def strEndsWith (s pat : String) : Bool :=
  pat.data.isSuffixOf s.data

/-- Embedding of Rust `char::to_ascii_uppercase`. -/
def charAsciiUpper (c : Char) : Char :=
  if 'a' ≤ c ∧ c ≤ 'z' then Char.ofNat (c.toNat - 32) else c

/-- Embedding of Rust `str::to_ascii_uppercase`. -/
def strAsciiUpper (s : String) : String :=
  String.mk (s.data.map charAsciiUpper)

/-- Embedding of Rust `str::replace('-', "_")` (a single-character
pattern replaces each occurrence of that character). -/
def dashToUnderscore (s : String) : String :=
  String.mk (s.data.map (fun c => if c = '-' then '_' else c))

/-- `Builder::lib_name`: read `CARGO_CRATE_NAME`, falling back to
`CARGO_PKG_NAME` with dashes replaced by underscores; panic
(`expect`) when both are absent. -/
def lib_name (env : Env) : Except GenError String :=
  match env.crateName with
  | some s => Except.ok s
  | none =>
      match env.pkgName with
      | some s => Except.ok (dashToUnderscore s)
      | none => Except.error GenError.configError

/-- `Builder::guard`: the explicitly configured guard if present,
otherwise `format!("__RUST_{}__", Self::lib_name().to_ascii_uppercase())`. -/
def guardOf (cfg : Config) (env : Env) : Except GenError String :=
  match cfg.guard with
  | some g => Except.ok g
  | none => (lib_name env).map (fun n => "__RUST_" ++ strAsciiUpper n ++ "__")

/-- `Builder::pascal_cased_lib_name`'s character scan: a stateful
`filter_map` whose flag starts `true`, uppercases the character after
each (consumed) underscore, and is checked before the underscore test. -/
def pascalScan (l : List Char) : List Char × Bool :=
  l.foldl
    (fun acc c =>
      if acc.2 then (acc.1 ++ [charAsciiUpper c], false)
      else if c = '_' then (acc.1, true)
      else (acc.1 ++ [c], false))
    ([], true)

/-- `Builder::pascal_cased_lib_name`: PascalCase the resolved library
name. -/
def pascal_cased_lib_name (env : Env) : Except GenError String :=
  (lib_name env).map (fun n => String.mk (pascalScan n.data).1)

/-- Modelled from the spec: `name_wrapping_var` of the missing per-type
`CType` implementations — render a variable declaration fragment wrapping
`var`, placing pointer stars, `const` qualifiers and array brackets
(§4.1; the scenario in §8 fixes `char const * fst` for a string
reference and `char * ...` for an owned string). -/
def nameWrappingVar (lang : Language) : CTy → String → String
  | CTy.prim s _, v => s ++ " " ++ v
  | CTy.ptr true t, v => nameWrappingVar lang t ("const * " ++ v)
  | CTy.ptr false t, v => nameWrappingVar lang t ("* " ++ v)
  | CTy.arr t n, v => nameWrappingVar lang t (v ++ "[" ++ toString n ++ "]")
  | CTy.composite id, v => id ++ " " ++ v

/-- Modelled from the spec: `csharp_marshaler` of the missing per-type
`CType` implementations — the optional C#-only marshaling directive
(§4.1); its string content is out of scope, so only primitives carry one. -/
def csharpMarshaler : CTy → Option String
  | CTy.prim _ m => m
  | CTy.ptr _ _ => none
  | CTy.arr _ _ => none
  | CTy.composite _ => none

/-- Modelled from the spec: the text a composite writes for its own
definition (`define_self` writes "the composite's full declaration (its
name, documentation, and member list)", §4.1). -/
def compositeBodyText (lang : Language) (id : String)
    (fields : List (String × CTy)) : String :=
  "typedef struct \x7b\n" ++
    String.join (fields.map (fun f =>
      "    " ++ nameWrappingVar lang f.2 f.1 ++ ";\n")) ++
  "\x7d " ++ id ++ ";\n\n"

/-- The `define_self` protocol over a worklist of type descriptors,
with explicit fuel (see the module comment).  For a composite identity:
if it is already in the dedup ledger, return immediately; otherwise mark
it in the ledger first, recursively define every field type
(dependency-before-use), then write the composite's own body.  Pointer
and array descriptors defer to their element type; primitives need no
definition. -/
def defineMany (env : TypeEnv) (lang : Language) : Nat → List CTy → Step
  | 0, _ => idStep
  | _ + 1, [] => idStep
  | fuel + 1, t :: rest =>
      let first : Step :=
        match t with
        | CTy.prim _ _ => idStep
        | CTy.ptr _ u => defineMany env lang fuel [u]
        | CTy.arr u _ => defineMany env lang fuel [u]
        | CTy.composite id => fun st =>
            if id ∈ st.defined then (st, none)
            else
              let fields := (lookupKey env id).getD []
              Step.seq (markDefined id)
                (Step.seq (defineMany env lang fuel (fields.map Prod.snd))
                  (emitChunk (Tag.typedefTag id)
                    (compositeBodyText lang id fields))) st
      Step.seq first (defineMany env lang fuel rest)

/-- `CType::define_self` for a single type descriptor. -/
def define_self (env : TypeEnv) (lang : Language) (fuel : Nat)
    (t : CTy) : Step :=
  defineMany env lang fuel [t]

/-- `__define_fn__::name`: write the trimmed function name followed by an
opening parenthesis (identical formatting for every language). -/
def fnName (fname : String) (_lang : Language) : String :=
  strTrim fname ++ " ("

/-- `__define_fn__::arg`: append one argument to the accumulated
`fname_and_args` string — a comma unless the accumulator still ends with
the opening parenthesis, then a newline, indentation, for C# an optional
`[MarshalAs(..)]` directive, and the wrapped variable declaration. -/
def fnArg (lang : Language) (out : String) (argName : String)
    (ty : CTy) : String :=
  let out := if strEndsWith out "(" then out else out ++ ","
  match lang with
  | Language.c => out ++ "\n    " ++ nameWrappingVar Language.c ty argName
  | Language.csharp =>
      let m :=
        match csharpMarshaler ty with
        | some m => "[MarshalAs(" ++ m ++ ")]\n        "
        | none => ""
      out ++ "\n        " ++ m ++ nameWrappingVar Language.csharp ty argName

/-- `__define_fn__::ret`: finish the declaration.  For C, insert the
explicit `void` marker when no argument was rendered (the accumulator
still ends with `(`), then write the return type wrapping the whole
`name(args)` string, terminated by `);` and a blank line (`writeln!` of
`"{});\n"`).  For C#, wrap inside the `partial class Ffi` block with the
`DllImport` annotation and optional return marshaling directive. -/
def fnRetText (lang : Language) (ret : CTy) (fnameAndArgs : String) :
    String :=
  match lang with
  | Language.c =>
      let fa :=
        if strEndsWith fnameAndArgs "(" then fnameAndArgs ++ "void"
        else fnameAndArgs
      nameWrappingVar Language.c ret fa ++ ");\n" ++ "\n"
  | Language.csharp =>
      let mb :=
        match csharpMarshaler ret with
        | some m => "[return: MarshalAs(" ++ m ++ ")]\n    "
        | none => ""
      "public unsafe partial class Ffi \x7b\n    " ++ mb ++
        "[DllImport(RustLib, ExactSpelling = true)] public static unsafe extern\n    " ++
        nameWrappingVar Language.csharp ret fnameAndArgs ++ ");\n" ++
        "\x7d\n" ++ "\n"

/-- Modelled from the spec: the documentation lines rendered ahead of a
declaration by the missing `languages` backends; empty documentation
renders nothing. -/
def docsText (_lang : Language) (docs : List String) : String :=
  if docs.isEmpty then ""
  else
    "/** \\brief\n" ++
      String.join (docs.map (fun d => " *  " ++ d ++ "\n")) ++ " */\n"

/-- The full declaration text for one export, assembled exactly as the
`__define_fn__` helpers do: `name`, then `arg` folded over the argument
list in declared order, then `ret`. -/
def declText (lang : Language) (e : FfiExport) : String :=
  docsText lang e.docs ++
    fnRetText lang e.ret
      (e.args.foldl (fun out a => fnArg lang out a.1 a.2)
        (fnName e.name lang))

/-- Modelled from the spec: the backend's `emit_function` (§4.3) — before
the declaration is written, trigger `define_self` for every argument type
and for the return type so the definitions precede first use, then write
the declaration itself. -/
def emit_function (env : TypeEnv) (lang : Language) (fuel : Nat)
    (e : FfiExport) : Step :=
  Step.seq (defineMany env lang fuel (e.args.map Prod.snd))
    (Step.seq (defineMany env lang fuel [e.ret])
      (emitChunk (Tag.declTag e.name) (declText lang e)))

/-- The default banner text of `Builder::write_banner`. -/
def defaultBanner : String :=
  "/*! \\file */\n" ++
  "/*******************************************\n" ++
  " *                                         *\n" ++
  " *  File auto-generated by `::safer_ffi`.  *\n" ++
  " *                                         *\n" ++
  " *  Do not manually edit this file.        *\n" ++
  " *                                         *\n" ++
  " *******************************************/\n"

/-- `Builder::write_banner`: `writeln!` the configured banner or the
default boilerplate as the first output of the run. -/
def write_banner (cfg : Config) : Step :=
  emitChunk Tag.bannerTag ((cfg.banner.getD defaultBanner) ++ "\n")

/-- Modelled from the spec: the missing `templates/c/_prelude.h` file —
the C prelude opens the include guard (`#ifndef` / `#define` of the
resolved guard name, §8). -/
def cPreludeText (g : String) : String :=
  "#ifndef " ++ g ++ "\n#define " ++ g ++ "\n"

/-- Modelled from the spec: the missing `templates/csharp/_prelude.cs`
file — boilerplate parameterized by the PascalCased namespace and the
library name. -/
def csPreludeText (ns lib : String) : String :=
  "// C# bindings, namespace " ++ ns ++ ", RustLib = " ++ lib ++ "\n"

/-- `Builder::write_prelude`: resolve the guard first (the source
computes `self.guard()` before branching on the language), then
`writeln!` the language-specific prelude template. -/
def write_prelude (cfg : Config) (env : Env) : Step := fun st =>
  let lang := cfg.language.getD Language.c
  match guardOf cfg env with
  | Except.error e => (st, some e)
  | Except.ok g =>
      match lang with
      | Language.c => emitChunk Tag.preludeTag (cPreludeText g ++ "\n") st
      | Language.csharp =>
          match pascal_cased_lib_name env, lib_name env with
          | Except.ok ns, Except.ok lib =>
              emitChunk Tag.preludeTag (csPreludeText ns lib ++ "\n") st
          | Except.error e, _ => (st, some e)
          | _, Except.error e => (st, some e)

/-- Lexicographic strict ordering on character lists, the order Rust's
`BTreeMap<&str, _>` sorts its keys by. -/
def charListLt : List Char → List Char → Bool
  | [], [] => false
  | [], _ :: _ => true
  | _ :: _, [] => false
  | a :: as, b :: bs =>
      if a < b then true
      else if b < a then false
      else charListLt as bs

/-- Lexicographic strict ordering on strings (Rust `Ord` for `&str`). -/
def strLt (a b : String) : Bool :=
  charListLt a.data b.data

/-- One `BTreeMap` insertion into a key-sorted association list: place
the new pair before the first larger key, replacing an equal key. -/
def btInsert (m : List (String × FfiExport)) (k : String)
    (v : FfiExport) : List (String × FfiExport) :=
  match m with
  | [] => [(k, v)]
  | (k', v') :: rest =>
      if strLt k k' then (k, v) :: (k', v') :: rest
      else if k = k' then (k, v) :: rest
      else (k', v') :: btInsert rest k v

/-- `collect::<BTreeMap<_, _>>()`: fold the `(name, export)` pairs into
the sorted map (later entries with an equal key overwrite earlier ones). -/
def btOfList (l : List (String × FfiExport)) : List (String × FfiExport) :=
  l.foldl (fun m kv => btInsert m kv.1 kv.2) []

/-- The stable-mode emission order of `Builder::write_body`: sort the
exports by name into a `BTreeMap` and iterate its values. -/
def stableOrder (exports : List FfiExport) : List FfiExport :=
  (btOfList (exports.map (fun e => (e.name, e)))).map Prod.snd

/-- `Builder::write_body`: choose the emission order (stable: `BTreeMap`
by name; unstable: registration order reversed), read the naming
convention (bound but unused in the source, mirrored by `_naming` here),
and emit every export in order through the backend. -/
def write_body (cfg : Config) (tenv : TypeEnv)
    (exports : List FfiExport) (fuel : Nat) : Step :=
  let stable := cfg.stableHeader.getD true
  let lang := cfg.language.getD Language.c
  let _naming := cfg.namingConvention.getD NamingConvention.defaultConv
  let order := if stable then stableOrder exports else exports.reverse
  stepList (emit_function tenv lang fuel) order

/-- Modelled from the spec: the missing `templates/c/epilogue.h` file —
the C epilogue closes the include guard with
`#endif /* <guard> */` as the final line (§8). -/
def cEpilogueText (g : String) : String :=
  "\n#endif /* " ++ g ++ " */\n"

/-- Modelled from the spec: the missing `templates/csharp/epilogue.cs`
file — closing boilerplate parameterized by the PascalCased package
name. -/
def csEpilogueText (pkg : String) : String :=
  "// end of C# bindings for " ++ pkg ++ "\n"

/-- `Builder::write_epilogue`: `write!` the language-specific closing
template (guard close for C, parameterized by the PascalCased name for
C#). -/
def write_epilogue (cfg : Config) (env : Env) : Step := fun st =>
  match cfg.language.getD Language.c with
  | Language.c =>
      match guardOf cfg env with
      | Except.error e => (st, some e)
      | Except.ok g => emitChunk Tag.epilogueTag (cEpilogueText g) st
  | Language.csharp =>
      match pascal_cased_lib_name env with
      | Except.error e => (st, some e)
      | Except.ok pkg => emitChunk Tag.epilogueTag (csEpilogueText pkg) st

/-- `Builder::generate_with_definer`: the four-phase pipeline —
banner, prelude, body, epilogue — sequenced with early return on the
first error. -/
def generate_with_definer (cfg : Config) (env : Env) (tenv : TypeEnv)
    (exports : List FfiExport) (fuel : Nat) : Step :=
  Step.seq (write_banner cfg)
    (Step.seq (write_prelude cfg env)
      (Step.seq (write_body cfg tenv exports fuel)
        (write_epilogue cfg env)))

/-- `Builder::generate`: run `generate_with_definer` with a fresh
`HashSetDefiner` whose dedup ledger starts empty
(`defines_set: Default::default()`); `budget` selects the write-failure
behaviour of the underlying sink (`none`: no write ever fails). -/
def generate (cfg : Config) (env : Env) (tenv : TypeEnv)
    (exports : List FfiExport) (fuel : Nat) (budget : Option Nat) :
    DState × Option GenError :=
  generate_with_definer cfg env tenv exports fuel
    { chunks := [], budget := budget, defined := [] }

/-- Number of chunks that are the definition body of composite `id`. -/
def countTypedef (id : String) (cs : List Chunk) : Nat :=
  cs.countP (fun c => decide (c.1 = Tag.typedefTag id))

/-- Number of chunks that are a function declaration named `n`. -/
def countDecl (n : String) (cs : List Chunk) : Nat :=
  cs.countP (fun c => decide (c.1 = Tag.declTag n))

/-! ### Generic facts about steps -/

/-- A step only appends chunks, and every appended chunk has a tag
satisfying `P`. -/
def TagStep (P : Tag → Prop) (f : Step) : Prop :=
  ∀ st, ∃ new, (f st).1.chunks = st.chunks ++ new ∧
    ∀ c ∈ new, P c.1

/-- A step only appends chunks, and every appended chunk belongs to
phase `p`. -/
def PhaseStep (p : Phase) (f : Step) : Prop :=
  TagStep (fun t => phaseOf t = p) f

/-- A step over a sink without a write budget never fails and keeps the
budget absent. -/
def NoFailNone (f : Step) : Prop :=
  ∀ st, st.budget = none → (f st).2 = none ∧ (f st).1.budget = none

/-- A step never removes identities from the dedup ledger. -/
def DefMono (f : Step) : Prop :=
  ∀ st x, x ∈ st.defined → x ∈ (f st).1.defined

theorem phaseStep_idStep (p : Phase) : PhaseStep p idStep := by
  intro st
  exact ⟨[], by simp [idStep], by simp⟩

theorem phaseStep_emitChunk (p : Phase) (t : Tag) (txt : String)
    (h : phaseOf t = p) : PhaseStep p (emitChunk t txt) := by
  intro st
  rcases hb : st.budget with _ | (_ | b)
  · exact ⟨[(t, txt)], by simp [emitChunk, hb], by simpa using h⟩
  · exact ⟨[], by simp [emitChunk, hb], by simp⟩
  · exact ⟨[(t, txt)], by simp [emitChunk, hb], by simpa using h⟩

theorem phaseStep_markDefined (p : Phase) (id : String) :
    PhaseStep p (markDefined id) := by
  intro st
  exact ⟨[], by simp [markDefined], by simp⟩

theorem phaseStep_seq {p : Phase} {f g : Step} (hf : PhaseStep p f)
    (hg : PhaseStep p g) : PhaseStep p (Step.seq f g) := by
  intro st
  rcases hfs : f st with ⟨st1, e1⟩
  obtain ⟨new1, hc1, hp1⟩ := hf st
  rw [hfs] at hc1
  cases e1 with
  | none =>
      obtain ⟨new2, hc2, hp2⟩ := hg st1
      simp only at hc1
      refine ⟨new1 ++ new2, ?_, ?_⟩
      · simp only [Step.seq, hfs]
        rw [hc2, hc1, List.append_assoc]
      · intro c hc
        rcases List.mem_append.1 hc with h | h
        · exact hp1 c h
        · exact hp2 c h
  | some e =>
      refine ⟨new1, ?_, hp1⟩
      simp only [Step.seq, hfs]
      simpa using hc1

theorem phaseStep_stepList {α : Type} {p : Phase} {f : α → Step}
    (hf : ∀ x, PhaseStep p (f x)) :
    ∀ l : List α, PhaseStep p (stepList f l) := by
  intro l
  induction l with
  | nil => exact phaseStep_idStep p
  | cons x xs ih => exact phaseStep_seq (hf x) ih

theorem phaseStep_defineMany (env : TypeEnv) (lang : Language) :
    ∀ (fuel : Nat) (ts : List CTy),
      PhaseStep Phase.bodyP (defineMany env lang fuel ts) := by
  intro fuel
  induction fuel with
  | zero => intro ts; exact phaseStep_idStep _
  | succ fuel ih =>
      intro ts
      match ts with
      | [] => exact phaseStep_idStep _
      | t :: rest =>
          have hrest := ih rest
          have hfirst : PhaseStep Phase.bodyP
              (match t with
                | CTy.prim _ _ => idStep
                | CTy.ptr _ u => defineMany env lang fuel [u]
                | CTy.arr u _ => defineMany env lang fuel [u]
                | CTy.composite id => fun st =>
                    if id ∈ st.defined then (st, none)
                    else
                      let fields := (lookupKey env id).getD []
                      Step.seq (markDefined id)
                        (Step.seq
                          (defineMany env lang fuel (fields.map Prod.snd))
                          (emitChunk (Tag.typedefTag id)
                            (compositeBodyText lang id fields))) st) := by
            match t with
            | CTy.prim s m => exact phaseStep_idStep _
            | CTy.ptr b u => exact ih [u]
            | CTy.arr u n => exact ih [u]
            | CTy.composite id =>
                intro st
                by_cases hd : id ∈ st.defined
                · exact ⟨[], by simp [hd], by simp⟩
                · simp only [hd, if_false]
                  exact phaseStep_seq (phaseStep_markDefined _ _)
                    (phaseStep_seq (ih _)
                      (phaseStep_emitChunk Phase.bodyP
                        (Tag.typedefTag id) _ rfl)) st
          exact phaseStep_seq hfirst hrest

theorem phaseStep_emit_function (env : TypeEnv) (lang : Language)
    (fuel : Nat) (e : FfiExport) :
    PhaseStep Phase.bodyP (emit_function env lang fuel e) :=
  phaseStep_seq (phaseStep_defineMany env lang fuel _)
    (phaseStep_seq (phaseStep_defineMany env lang fuel _)
      (phaseStep_emitChunk Phase.bodyP (Tag.declTag e.name) _ rfl))

theorem phaseStep_write_body (cfg : Config) (tenv : TypeEnv)
    (exports : List FfiExport) (fuel : Nat) :
    PhaseStep Phase.bodyP (write_body cfg tenv exports fuel) :=
  phaseStep_stepList (fun e => phaseStep_emit_function tenv _ fuel e) _

theorem noFailNone_idStep : NoFailNone idStep := by
  intro st h; exact ⟨rfl, h⟩

theorem noFailNone_emitChunk (t : Tag) (txt : String) :
    NoFailNone (emitChunk t txt) := by
  intro st h
  simp [emitChunk, h]

theorem noFailNone_markDefined (id : String) :
    NoFailNone (markDefined id) := by
  intro st h; exact ⟨rfl, h⟩

theorem noFailNone_seq {f g : Step} (hf : NoFailNone f)
    (hg : NoFailNone g) : NoFailNone (Step.seq f g) := by
  intro st h
  rcases hfs : f st with ⟨st1, e1⟩
  have h1 := hf st h
  rw [hfs] at h1
  cases e1 with
  | none =>
      have h2 := hg st1 h1.2
      simpa [Step.seq, hfs] using h2
  | some e => exact absurd h1.1 (by simp)

theorem noFailNone_stepList {α : Type} {f : α → Step}
    (hf : ∀ x, NoFailNone (f x)) :
    ∀ l : List α, NoFailNone (stepList f l) := by
  intro l
  induction l with
  | nil => exact noFailNone_idStep
  | cons x xs ih => exact noFailNone_seq (hf x) ih

theorem noFailNone_defineMany (env : TypeEnv) (lang : Language) :
    ∀ (fuel : Nat) (ts : List CTy),
      NoFailNone (defineMany env lang fuel ts) := by
  intro fuel
  induction fuel with
  | zero => intro ts; exact noFailNone_idStep
  | succ fuel ih =>
      intro ts
      match ts with
      | [] => exact noFailNone_idStep
      | t :: rest =>
          refine noFailNone_seq ?_ (ih rest)
          match t with
          | CTy.prim s m => exact noFailNone_idStep
          | CTy.ptr b u => exact ih [u]
          | CTy.arr u n => exact ih [u]
          | CTy.composite id =>
              intro st h
              by_cases hd : id ∈ st.defined
              · simp [hd, h]
              · simp only [hd, if_false]
                exact noFailNone_seq (noFailNone_markDefined _)
                  (noFailNone_seq (ih _) (noFailNone_emitChunk _ _)) st h

theorem noFailNone_emit_function (env : TypeEnv) (lang : Language)
    (fuel : Nat) (e : FfiExport) :
    NoFailNone (emit_function env lang fuel e) :=
  noFailNone_seq (noFailNone_defineMany env lang fuel _)
    (noFailNone_seq (noFailNone_defineMany env lang fuel _)
      (noFailNone_emitChunk _ _))

theorem noFailNone_write_body (cfg : Config) (tenv : TypeEnv)
    (exports : List FfiExport) (fuel : Nat) :
    NoFailNone (write_body cfg tenv exports fuel) :=
  noFailNone_stepList (fun e => noFailNone_emit_function tenv _ fuel e) _

theorem defMono_idStep : DefMono idStep := by
  intro st x h; exact h

theorem defMono_emitChunk (t : Tag) (txt : String) :
    DefMono (emitChunk t txt) := by
  intro st x h
  rcases hb : st.budget with _ | (_ | b) <;> simpa [emitChunk, hb] using h

theorem defMono_markDefined (id : String) : DefMono (markDefined id) := by
  intro st x h
  simp [markDefined]
  exact Or.inr h

theorem defMono_seq {f g : Step} (hf : DefMono f) (hg : DefMono g) :
    DefMono (Step.seq f g) := by
  intro st x h
  rcases hfs : f st with ⟨st1, e1⟩
  have h1 := hf st x h
  rw [hfs] at h1
  cases e1 with
  | none =>
      have h2 := hg st1 x h1
      simpa [Step.seq, hfs] using h2
  | some e => simpa [Step.seq, hfs] using h1

theorem defMono_stepList {α : Type} {f : α → Step}
    (hf : ∀ x, DefMono (f x)) : ∀ l : List α, DefMono (stepList f l) := by
  intro l
  induction l with
  | nil => exact defMono_idStep
  | cons x xs ih => exact defMono_seq (hf x) ih

theorem defMono_defineMany (env : TypeEnv) (lang : Language) :
    ∀ (fuel : Nat) (ts : List CTy),
      DefMono (defineMany env lang fuel ts) := by
  intro fuel
  induction fuel with
  | zero => intro ts; exact defMono_idStep
  | succ fuel ih =>
      intro ts
      match ts with
      | [] => exact defMono_idStep
      | t :: rest =>
          refine defMono_seq ?_ (ih rest)
          match t with
          | CTy.prim s m => exact defMono_idStep
          | CTy.ptr b u => exact ih [u]
          | CTy.arr u n => exact ih [u]
          | CTy.composite id =>
              intro st x h
              by_cases hd : id ∈ st.defined
              · simpa [hd] using h
              · simp only [hd, if_false]
                exact defMono_seq (defMono_markDefined _)
                  (defMono_seq (ih _) (defMono_emitChunk _ _)) st x h

/-! ### At-most-once definition of composites -/

theorem countTypedef_append (id : String) (cs1 cs2 : List Chunk) :
    countTypedef id (cs1 ++ cs2) =
      countTypedef id cs1 + countTypedef id cs2 :=
  List.countP_append _ _ _

theorem countTypedef_single_self (id : String) (txt : String) :
    countTypedef id [(Tag.typedefTag id, txt)] = 1 := by
  simp [countTypedef]

/-- The dedup invariant for one composite identity: its body occurs at
most once among the written chunks, and not at all while the identity is
absent from the ledger. -/
def P2 (id : String) (st : DState) : Prop :=
  countTypedef id st.chunks ≤ 1 ∧
    (id ∉ st.defined → countTypedef id st.chunks = 0)

/-- A step that writes no further body for `id` once `id` is in the
ledger. -/
def NoRedef (id : String) (f : Step) : Prop :=
  ∀ st, id ∈ st.defined →
    countTypedef id (f st).1.chunks = countTypedef id st.chunks

/-- A step preserving the dedup invariant for `id`. -/
def Pres (id : String) (f : Step) : Prop :=
  ∀ st, P2 id st → P2 id (f st).1

theorem noRedef_idStep (id : String) : NoRedef id idStep := by
  intro st _; rfl

theorem noRedef_markDefined (id id' : String) :
    NoRedef id (markDefined id') := by
  intro st _; rfl

theorem countTypedef_emitChunk (id : String) (t : Tag) (txt : String)
    (st : DState) (h : t ≠ Tag.typedefTag id) :
    countTypedef id (emitChunk t txt st).1.chunks =
      countTypedef id st.chunks := by
  rcases hb : st.budget with _ | (_ | b) <;>
    simp [emitChunk, hb, countTypedef, h]

theorem noRedef_emitChunk (id : String) (t : Tag) (txt : String)
    (h : t ≠ Tag.typedefTag id) : NoRedef id (emitChunk t txt) := by
  intro st _
  exact countTypedef_emitChunk id t txt st h

theorem noRedef_seq {id : String} {f g : Step} (hfm : DefMono f)
    (hf : NoRedef id f) (hg : NoRedef id g) :
    NoRedef id (Step.seq f g) := by
  intro st h
  rcases hfs : f st with ⟨st1, e1⟩
  have h1 : id ∈ st1.defined := by
    have := hfm st id h
    rwa [hfs] at this
  have hcf := hf st h
  rw [hfs] at hcf
  cases e1 with
  | none =>
      have hcg := hg st1 h1
      simp only [Step.seq, hfs]
      simp only at hcf
      rw [hcg, hcf]
  | some e =>
      simp only [Step.seq, hfs]
      simpa using hcf

theorem noRedef_stepList {α : Type} {id : String} {f : α → Step}
    (hfm : ∀ x, DefMono (f x)) (hf : ∀ x, NoRedef id (f x)) :
    ∀ l : List α, NoRedef id (stepList f l) := by
  intro l
  induction l with
  | nil => exact noRedef_idStep id
  | cons x xs ih => exact noRedef_seq (hfm x) (hf x) ih

theorem noRedef_defineMany (env : TypeEnv) (lang : Language)
    (id : String) :
    ∀ (fuel : Nat) (ts : List CTy),
      NoRedef id (defineMany env lang fuel ts) := by
  intro fuel
  induction fuel with
  | zero => intro ts; exact noRedef_idStep id
  | succ fuel ih =>
      intro ts
      match ts with
      | [] => exact noRedef_idStep id
      | t :: rest =>
          refine noRedef_seq ?_ ?_ (ih rest)
          · match t with
            | CTy.prim s m => exact defMono_idStep
            | CTy.ptr b u => exact defMono_defineMany env lang fuel [u]
            | CTy.arr u n => exact defMono_defineMany env lang fuel [u]
            | CTy.composite i =>
                intro st x h
                by_cases hd : i ∈ st.defined
                · simpa [hd] using h
                · simp only [hd, if_false]
                  exact defMono_seq (defMono_markDefined _)
                    (defMono_seq (defMono_defineMany env lang fuel _)
                      (defMono_emitChunk _ _)) st x h
          · match t with
            | CTy.prim s m => exact noRedef_idStep id
            | CTy.ptr b u => exact ih [u]
            | CTy.arr u n => exact ih [u]
            | CTy.composite i =>
                intro st h
                by_cases hd : i ∈ st.defined
                · simp [hd]
                · simp only [hd, if_false]
                  have hne : i ≠ id := fun he => hd (he ▸ h)
                  exact noRedef_seq (defMono_markDefined _)
                    (noRedef_markDefined id i)
                    (noRedef_seq (defMono_defineMany env lang fuel _)
                      (ih _)
                      (noRedef_emitChunk id _ _
                        (by simpa using hne))) st h

theorem pres_emitChunk_other (id : String) (t : Tag) (txt : String)
    (h : t ≠ Tag.typedefTag id) : Pres id (emitChunk t txt) := by
  intro st hp
  have hc := countTypedef_emitChunk id t txt st h
  have hd : (emitChunk t txt st).1.defined = st.defined := by
    rcases hb : st.budget with _ | (_ | b) <;> simp [emitChunk, hb]
  exact ⟨hc ▸ hp.1, fun hn => hc ▸ hp.2 (hd ▸ hn)⟩

theorem pres_idStep (id : String) : Pres id idStep := by
  intro st hp; exact hp

theorem pres_markDefined (id id' : String) : Pres id (markDefined id') := by
  intro st hp
  refine ⟨hp.1, fun hn => hp.2 (fun hmem => hn ?_)⟩
  simp [markDefined]
  exact Or.inr hmem

theorem pres_seq {id : String} {f g : Step} (hf : Pres id f)
    (hg : Pres id g) : Pres id (Step.seq f g) := by
  intro st hp
  rcases hfs : f st with ⟨st1, e1⟩
  have h1 := hf st hp
  rw [hfs] at h1
  cases e1 with
  | none =>
      have h2 := hg st1 h1
      simpa [Step.seq, hfs] using h2
  | some e => simpa [Step.seq, hfs] using h1

theorem pres_stepList {α : Type} {id : String} {f : α → Step}
    (hf : ∀ x, Pres id (f x)) : ∀ l : List α, Pres id (stepList f l) := by
  intro l
  induction l with
  | nil => exact pres_idStep id
  | cons x xs ih => exact pres_seq (hf x) ih

theorem pres_defineMany (env : TypeEnv) (lang : Language) (id : String) :
    ∀ (fuel : Nat) (ts : List CTy),
      Pres id (defineMany env lang fuel ts) := by
  intro fuel
  induction fuel with
  | zero => intro ts; exact pres_idStep id
  | succ fuel ih =>
      intro ts
      match ts with
      | [] => exact pres_idStep id
      | t :: rest =>
          refine pres_seq ?_ (ih rest)
          match t with
          | CTy.prim s m => exact pres_idStep id
          | CTy.ptr b u => exact ih [u]
          | CTy.arr u n => exact ih [u]
          | CTy.composite i =>
              intro st hp
              by_cases hd : i ∈ st.defined
              · simpa [hd] using hp
              · simp only [hd, if_false]
                by_cases hii : i = id
                · -- defining `id` itself: the ledger gains `id` first,
                  -- the recursive field definitions cannot write another
                  -- body for it, then exactly one body is written
                  subst hii
                  have hc0 : countTypedef i st.chunks = 0 := hp.2 hd
                  set st1 : DState := { st with defined := i :: st.defined }
                    with hst1
                  have h1d : i ∈ st1.defined := by simp [hst1]
                  have h1c : countTypedef i st1.chunks = 0 := hc0
                  rcases hdm : defineMany env lang fuel
                      (((lookupKey env i).getD []).map Prod.snd) st1
                    with ⟨st2, e2⟩
                  have h2c : countTypedef i st2.chunks =
                      countTypedef i st1.chunks := by
                    have := noRedef_defineMany env lang i fuel
                      (((lookupKey env i).getD []).map Prod.snd) st1 h1d
                    rwa [hdm] at this
                  have h2d : i ∈ st2.defined := by
                    have := defMono_defineMany env lang fuel
                      (((lookupKey env i).getD []).map Prod.snd) st1 i h1d
                    rwa [hdm] at this
                  show P2 i ((Step.seq (markDefined i) _ st)).1
                  simp only [Step.seq, markDefined, ← hst1, hdm]
                  cases e2 with
                  | none =>
                      constructor
                      · rcases hb : st2.budget with _ | (_ | b)
                        · simp only [emitChunk, hb]
                          rw [countTypedef_append, h2c, h1c,
                            countTypedef_single_self]
                        · simp only [emitChunk, hb]
                          rw [h2c, h1c]
                          omega
                        · simp only [emitChunk, hb]
                          rw [countTypedef_append, h2c, h1c,
                            countTypedef_single_self]
                      · intro hn
                        exfalso
                        apply hn
                        rcases hb : st2.budget with _ | (_ | b) <;>
                          simpa [emitChunk, hb] using h2d
                  | some e2' =>
                      exact ⟨by rw [h2c, h1c]; omega, fun _ => by rw [h2c, h1c]⟩
                · -- defining some other identity: its body chunk is not
                  -- a body for `id`
                  have hne : CTy.composite i ≠ CTy.composite id := by
                    simpa using hii
                  exact pres_seq (pres_markDefined id i)
                    (pres_seq (ih _)
                      (pres_emitChunk_other id _ _
                        (by simpa using hii))) st hp

theorem pres_emit_function (id : String) (env : TypeEnv)
    (lang : Language) (fuel : Nat) (e : FfiExport) :
    Pres id (emit_function env lang fuel e) :=
  pres_seq (pres_defineMany env lang id fuel _)
    (pres_seq (pres_defineMany env lang id fuel _)
      (pres_emitChunk_other id _ _ (by simp)))

theorem pres_write_banner (id : String) (cfg : Config) :
    Pres id (write_banner cfg) :=
  pres_emitChunk_other id _ _ (by simp)

theorem pres_write_prelude (id : String) (cfg : Config) (env : Env) :
    Pres id (write_prelude cfg env) := by
  intro st hp
  simp only [write_prelude]
  cases hg : guardOf cfg env with
  | error e => exact hp
  | ok g =>
      cases hl : cfg.language.getD Language.c with
      | c => exact pres_emitChunk_other id _ _ (by simp) st hp
      | csharp =>
          cases h1 : pascal_cased_lib_name env with
          | error e => cases h2 : lib_name env <;> exact hp
          | ok ns =>
              cases h2 : lib_name env with
              | error e => exact hp
              | ok lib => exact pres_emitChunk_other id _ _ (by simp) st hp

theorem pres_write_body (id : String) (cfg : Config) (tenv : TypeEnv)
    (exports : List FfiExport) (fuel : Nat) :
    Pres id (write_body cfg tenv exports fuel) :=
  pres_stepList (fun e => pres_emit_function id tenv _ fuel e) _

theorem pres_write_epilogue (id : String) (cfg : Config) (env : Env) :
    Pres id (write_epilogue cfg env) := by
  intro st hp
  simp only [write_epilogue]
  cases hl : cfg.language.getD Language.c with
  | c =>
      cases hg : guardOf cfg env with
      | error e => exact hp
      | ok g => exact pres_emitChunk_other id _ _ (by simp) st hp
  | csharp =>
      cases h1 : pascal_cased_lib_name env with
      | error e => exact hp
      | ok pkg => exact pres_emitChunk_other id _ _ (by simp) st hp

theorem pres_generate_with_definer (id : String) (cfg : Config)
    (env : Env) (tenv : TypeEnv) (exports : List FfiExport) (fuel : Nat) :
    Pres id (generate_with_definer cfg env tenv exports fuel) :=
  pres_seq (pres_write_banner id cfg)
    (pres_seq (pres_write_prelude id cfg env)
      (pres_seq (pres_write_body id cfg tenv exports fuel)
        (pres_write_epilogue id cfg env)))

/-- Any full generation run writes the definition body of any composite
identity at most once, whether the run succeeds or aborts. -/
theorem generate_at_most_once (id : String) (cfg : Config) (env : Env)
    (tenv : TypeEnv) (exports : List FfiExport) (fuel : Nat)
    (budget : Option Nat) :
    countTypedef id
      (generate cfg env tenv exports fuel budget).1.chunks ≤ 1 := by
  have h0 : P2 id { chunks := [], budget := budget, defined := [] } := by
    constructor
    · simp [countTypedef]
    · intro _; simp [countTypedef]
  exact (pres_generate_with_definer id cfg env tenv exports fuel _ h0).1

/-- Once a composite identity is in the dedup ledger, `define_self` for
it is a complete no-op: same state, no output, no error (for every fuel
value). -/
theorem define_self_noop (env : TypeEnv) (lang : Language) (fuel : Nat)
    (id : String) (st : DState) (h : id ∈ st.defined) :
    define_self env lang fuel (CTy.composite id) st = (st, none) := by
  match fuel with
  | 0 => rfl
  | fuel + 1 =>
      show Step.seq _ (defineMany env lang fuel []) st = (st, none)
      have hnil : defineMany env lang fuel [] = idStep := by
        cases fuel <;> rfl
      simp only [Step.seq, h, if_true, hnil, idStep]

/-! ### Write failures abort the run -/

/-- Budget-truncation correspondence: when a step succeeds over a sink
whose writes never fail, writing the chunk list `new`, then over a sink
that fails at the `b`-th write it either performs the identical writes
(when `b` covers them, with the budget reduced accordingly) or writes
exactly the first `b` chunks of `new` and aborts with an I/O error —
nothing is written after the failed write. -/
def Trunc (f : Step) : Prop :=
  ∀ (st st' : DState), f (st.withBudget none) = (st', none) →
    st'.budget = none ∧
    ∃ new, st'.chunks = st.chunks ++ new ∧
      ∀ b : Nat,
        (new.length ≤ b →
          f (st.withBudget (some b)) =
            ({ st' with budget := some (b - new.length) }, none)) ∧
        (b < new.length →
          (f (st.withBudget (some b))).1.chunks = st.chunks ++ new.take b ∧
          (f (st.withBudget (some b))).2 = some GenError.ioError)

theorem trunc_idStep : Trunc idStep := by
  intro st st' h
  have hst : st' = st.withBudget none := congrArg Prod.fst h.symm
  subst hst
  refine ⟨rfl, [], by simp [DState.withBudget], ?_⟩
  intro b
  refine ⟨fun _ => ?_, fun hb => absurd hb (by simp)⟩
  simp only [idStep, DState.withBudget]
  rfl

theorem trunc_markDefined (id : String) : Trunc (markDefined id) := by
  intro st st' h
  have hst : st' = { st with budget := none, defined := id :: st.defined } := by
    simpa [markDefined, DState.withBudget] using congrArg Prod.fst h.symm
  subst hst
  refine ⟨rfl, [], by simp, ?_⟩
  intro b
  refine ⟨fun _ => ?_, fun hb => absurd hb (by simp)⟩
  simp only [markDefined, DState.withBudget]
  rfl

theorem trunc_emitChunk (t : Tag) (txt : String) :
    Trunc (emitChunk t txt) := by
  intro st st' h
  have hst : st' =
      { chunks := st.chunks ++ [(t, txt)], budget := none,
        defined := st.defined } := by
    simpa [emitChunk, DState.withBudget] using congrArg Prod.fst h.symm
  subst hst
  refine ⟨rfl, [(t, txt)], by simp, ?_⟩
  intro b
  constructor
  · intro hb
    match b, hb with
    | b + 1, _ =>
        simp only [emitChunk, DState.withBudget]
        rfl
  · intro hb
    have hb0 : b = 0 := by simpa using Nat.lt_one_iff.1 hb
    subst hb0
    simp [emitChunk, DState.withBudget]

theorem trunc_seq {f g : Step} (hf : Trunc f) (hg : Trunc g) :
    Trunc (Step.seq f g) := by
  intro st st'' h
  rcases hfs : f (st.withBudget none) with ⟨st1, e1⟩
  cases e1 with
  | some e =>
      rw [show Step.seq f g (st.withBudget none) = (st1, some e) by
        simp [Step.seq, hfs]] at h
      exact absurd (congrArg Prod.snd h) (by simp)
  | none =>
      have hgs : g st1 = (st'', none) := by
        have : Step.seq f g (st.withBudget none) = g st1 := by
          simp [Step.seq, hfs]
        rwa [this] at h
      obtain ⟨hb1, new1, hc1, hbeh1⟩ := hf st st1 hfs
      have hst1 : st1.withBudget none = st1 := by
        cases st1
        simp_all [DState.withBudget]
      obtain ⟨hb2, new2, hc2, hbeh2⟩ := hg st1 st'' (by rw [hst1]; exact hgs)
      refine ⟨hb2, new1 ++ new2, by rw [hc2, hc1, List.append_assoc], ?_⟩
      intro b
      constructor
      · intro hble
        have h1 := (hbeh1 b).1 (by simp at hble ⊢; omega)
        have h2 : g
            { chunks := st1.chunks, budget := some (b - new1.length),
              defined := st1.defined } =
            ({ chunks := st''.chunks,
               budget := some (b - new1.length - new2.length),
               defined := st''.defined }, none) :=
          (hbeh2 (b - new1.length)).1 (by simp at hble ⊢; omega)
        simp only [Step.seq, h1]
        rw [h2]
        have heq : b - new1.length - new2.length =
            b - (new1 ++ new2).length := by
          simp
          omega
        rw [heq]
      · intro hblt
        by_cases hb1' : b < new1.length
        · have h1 := (hbeh1 b).2 hb1'
          rcases hfb : f (st.withBudget (some b)) with ⟨stb, eb⟩
          rw [hfb] at h1
          have heb : eb = some GenError.ioError := h1.2
          subst heb
          constructor
          · simp only [Step.seq, hfb]
            rw [h1.1, List.take_append_of_le_length (Nat.le_of_lt hb1')]
          · simp [Step.seq, hfb]
        · push_neg at hb1'
          have h1 := (hbeh1 b).1 hb1'
          have hlt2 : b - new1.length < new2.length := by
            simp at hblt; omega
          have h2 : (g
                { chunks := st1.chunks,
                  budget := some (b - new1.length),
                  defined := st1.defined }).1.chunks =
                st1.chunks ++ new2.take (b - new1.length) ∧
              (g
                { chunks := st1.chunks,
                  budget := some (b - new1.length),
                  defined := st1.defined }).2 = some GenError.ioError :=
            (hbeh2 (b - new1.length)).2 hlt2
          constructor
          · simp only [Step.seq, h1]
            rw [h2.1, hc1]
            have hbsplit : b = new1.length + (b - new1.length) := by omega
            rw [List.append_assoc, ← List.take_append (b - new1.length),
              ← hbsplit]
          · simp only [Step.seq, h1]
            exact h2.2

theorem trunc_stepList {α : Type} {f : α → Step}
    (hf : ∀ x, Trunc (f x)) : ∀ l : List α, Trunc (stepList f l) := by
  intro l
  induction l with
  | nil => exact trunc_idStep
  | cons x xs ih => exact trunc_seq (hf x) ih

theorem trunc_defineMany (env : TypeEnv) (lang : Language) :
    ∀ (fuel : Nat) (ts : List CTy),
      Trunc (defineMany env lang fuel ts) := by
  intro fuel
  induction fuel with
  | zero => intro ts; exact trunc_idStep
  | succ fuel ih =>
      intro ts
      match ts with
      | [] => exact trunc_idStep
      | t :: rest =>
          refine trunc_seq ?_ (ih rest)
          match t with
          | CTy.prim s m => exact trunc_idStep
          | CTy.ptr b u => exact ih [u]
          | CTy.arr u n => exact ih [u]
          | CTy.composite id =>
              intro st st' h
              simp only [DState.withBudget] at h
              by_cases hd : id ∈ st.defined
              · simp only [hd, if_true] at h
                have hst : st' = st.withBudget none := by
                  simpa [DState.withBudget] using congrArg Prod.fst h.symm
                subst hst
                refine ⟨rfl, [], by simp [DState.withBudget], ?_⟩
                intro b
                refine ⟨fun _ => ?_, fun hb => absurd hb (by simp)⟩
                simp only [DState.withBudget, hd, if_true]
                rfl
              · simp only [hd, if_false] at h
                have hcomp := trunc_seq (trunc_markDefined id)
                  (trunc_seq (ih (((lookupKey env id).getD []).map Prod.snd))
                    (trunc_emitChunk (Tag.typedefTag id)
                      (compositeBodyText lang id ((lookupKey env id).getD []))))
                  st st' (by simpa [DState.withBudget] using h)
                obtain ⟨hb', new, hc, hbeh⟩ := hcomp
                refine ⟨hb', new, hc, ?_⟩
                intro b
                simp only [DState.withBudget, hd, if_false]
                have := hbeh b
                simpa [DState.withBudget] using this

theorem trunc_emit_function (env : TypeEnv) (lang : Language)
    (fuel : Nat) (e : FfiExport) :
    Trunc (emit_function env lang fuel e) :=
  trunc_seq (trunc_defineMany env lang fuel _)
    (trunc_seq (trunc_defineMany env lang fuel _) (trunc_emitChunk _ _))

theorem trunc_write_banner (cfg : Config) : Trunc (write_banner cfg) :=
  trunc_emitChunk _ _

theorem trunc_write_prelude (cfg : Config) (env : Env) :
    Trunc (write_prelude cfg env) := by
  intro st st' h
  simp only [write_prelude] at h ⊢
  cases hg : guardOf cfg env with
  | error e =>
      rw [hg] at h
      exact absurd (congrArg Prod.snd h) (by simp)
  | ok g =>
      simp only [hg] at h ⊢
      cases hl : cfg.language.getD Language.c with
      | c =>
          simp only [hl] at h ⊢
          exact trunc_emitChunk _ _ st st' h
      | csharp =>
          simp only [hl] at h ⊢
          cases h1 : pascal_cased_lib_name env with
          | error e =>
              rw [h1] at h
              exact absurd (congrArg Prod.snd h) (by simp)
          | ok ns =>
              simp only [h1] at h ⊢
              cases h2 : lib_name env with
              | error e =>
                  rw [h2] at h
                  exact absurd (congrArg Prod.snd h) (by simp)
              | ok lib =>
                  simp only [h2] at h ⊢
                  exact trunc_emitChunk _ _ st st' h

theorem trunc_write_body (cfg : Config) (tenv : TypeEnv)
    (exports : List FfiExport) (fuel : Nat) :
    Trunc (write_body cfg tenv exports fuel) :=
  trunc_stepList (fun e => trunc_emit_function tenv _ fuel e) _

theorem trunc_write_epilogue (cfg : Config) (env : Env) :
    Trunc (write_epilogue cfg env) := by
  intro st st' h
  simp only [write_epilogue] at h ⊢
  cases hl : cfg.language.getD Language.c with
  | c =>
      simp only [hl] at h ⊢
      cases hg : guardOf cfg env with
      | error e =>
          rw [hg] at h
          exact absurd (congrArg Prod.snd h) (by simp)
      | ok g =>
          simp only [hg] at h ⊢
          exact trunc_emitChunk _ _ st st' h
  | csharp =>
      simp only [hl] at h ⊢
      cases h1 : pascal_cased_lib_name env with
      | error e =>
          rw [h1] at h
          exact absurd (congrArg Prod.snd h) (by simp)
      | ok pkg =>
          simp only [h1] at h ⊢
          exact trunc_emitChunk _ _ st st' h

theorem trunc_generate_with_definer (cfg : Config) (env : Env)
    (tenv : TypeEnv) (exports : List FfiExport) (fuel : Nat) :
    Trunc (generate_with_definer cfg env tenv exports fuel) :=
  trunc_seq (trunc_write_banner cfg)
    (trunc_seq (trunc_write_prelude cfg env)
      (trunc_seq (trunc_write_body cfg tenv exports fuel)
        (trunc_write_epilogue cfg env)))

/-! ### Successful runs: exact chunk structure -/

theorem tagStep_idStep (P : Tag → Prop) : TagStep P idStep := by
  intro st
  exact ⟨[], by simp [idStep], by simp⟩

theorem tagStep_markDefined (P : Tag → Prop) (id : String) :
    TagStep P (markDefined id) := by
  intro st
  exact ⟨[], by simp [markDefined], by simp⟩

theorem tagStep_emitChunk (P : Tag → Prop) (t : Tag) (txt : String)
    (h : P t) : TagStep P (emitChunk t txt) := by
  intro st
  rcases hb : st.budget with _ | (_ | b)
  · exact ⟨[(t, txt)], by simp [emitChunk, hb], by simpa using h⟩
  · exact ⟨[], by simp [emitChunk, hb], by simp⟩
  · exact ⟨[(t, txt)], by simp [emitChunk, hb], by simpa using h⟩

theorem tagStep_seq {P : Tag → Prop} {f g : Step} (hf : TagStep P f)
    (hg : TagStep P g) : TagStep P (Step.seq f g) := by
  intro st
  rcases hfs : f st with ⟨st1, e1⟩
  obtain ⟨new1, hc1, hp1⟩ := hf st
  rw [hfs] at hc1
  cases e1 with
  | none =>
      obtain ⟨new2, hc2, hp2⟩ := hg st1
      simp only at hc1
      refine ⟨new1 ++ new2, ?_, ?_⟩
      · simp only [Step.seq, hfs]
        rw [hc2, hc1, List.append_assoc]
      · intro c hc
        rcases List.mem_append.1 hc with h | h
        · exact hp1 c h
        · exact hp2 c h
  | some e =>
      refine ⟨new1, ?_, hp1⟩
      simp only [Step.seq, hfs]
      simpa using hc1

/-- `defineMany` only ever writes composite definition bodies. -/
theorem tagStep_defineMany (env : TypeEnv) (lang : Language) :
    ∀ (fuel : Nat) (ts : List CTy),
      TagStep (fun t => ∃ i, t = Tag.typedefTag i)
        (defineMany env lang fuel ts) := by
  intro fuel
  induction fuel with
  | zero => intro ts; exact tagStep_idStep _
  | succ fuel ih =>
      intro ts
      match ts with
      | [] => exact tagStep_idStep _
      | t :: rest =>
          refine tagStep_seq ?_ (ih rest)
          match t with
          | CTy.prim s m => exact tagStep_idStep _
          | CTy.ptr b u => exact ih [u]
          | CTy.arr u n => exact ih [u]
          | CTy.composite id =>
              intro st
              by_cases hd : id ∈ st.defined
              · exact ⟨[], by simp [hd], by simp⟩
              · simp only [hd, if_false]
                exact tagStep_seq (tagStep_markDefined _ _)
                  (tagStep_seq (ih _)
                    (tagStep_emitChunk _ (Tag.typedefTag id) _ ⟨id, rfl⟩)) st

theorem countDecl_append (n : String) (cs1 cs2 : List Chunk) :
    countDecl n (cs1 ++ cs2) = countDecl n cs1 + countDecl n cs2 :=
  List.countP_append _ _ _

/-- `defineMany` never writes a function declaration chunk. -/
theorem countDecl_defineMany (n : String) (env : TypeEnv)
    (lang : Language) (fuel : Nat) (ts : List CTy) (st : DState) :
    countDecl n (defineMany env lang fuel ts st).1.chunks =
      countDecl n st.chunks := by
  obtain ⟨new, hc, hp⟩ := tagStep_defineMany env lang fuel ts st
  rw [hc, countDecl_append]
  have : countDecl n new = 0 := by
    refine List.countP_eq_zero.2 ?_
    intro c hcm
    obtain ⟨i, hi⟩ := hp c hcm
    simp [hi]
  omega

/-- Decompose a successful sequence into two successful halves. -/
theorem seq_success {f g : Step} {st st'' : DState}
    (h : Step.seq f g st = (st'', none)) :
    ∃ st1, f st = (st1, none) ∧ g st1 = (st'', none) := by
  rcases hfs : f st with ⟨st1, e1⟩
  cases e1 with
  | none =>
      refine ⟨st1, rfl, ?_⟩
      have : Step.seq f g st = g st1 := by simp [Step.seq, hfs]
      rwa [this] at h
  | some e =>
      have : Step.seq f g st = (st1, some e) := by simp [Step.seq, hfs]
      rw [this] at h
      exact absurd (congrArg Prod.snd h) (by simp)

/-- A successful write appends exactly its chunk. -/
theorem emitChunk_success {t : Tag} {txt : String} {st st' : DState}
    (h : emitChunk t txt st = (st', none)) :
    st'.chunks = st.chunks ++ [(t, txt)] := by
  rcases hb : st.budget with _ | (_ | b)
  · simp only [emitChunk, hb] at h
    have h1 := congrArg Prod.fst h
    simp only at h1
    rw [← h1]
  · simp [emitChunk, hb] at h
  · simp only [emitChunk, hb] at h
    have h1 := congrArg Prod.fst h
    simp only at h1
    rw [← h1]

/-- A successful emission of one export appends its composite-definition
chunks followed by exactly one declaration chunk carrying its name. -/
theorem emit_function_success_countDecl (n : String) (env : TypeEnv)
    (lang : Language) (fuel : Nat) (e : FfiExport) (st st' : DState)
    (h : emit_function env lang fuel e st = (st', none)) :
    countDecl n st'.chunks =
      countDecl n st.chunks + (if e.name = n then 1 else 0) := by
  obtain ⟨st1, h1, hrest⟩ := seq_success h
  obtain ⟨st2, h2, hemit⟩ := seq_success hrest
  have hc : st'.chunks = st2.chunks ++ [(Tag.declTag e.name, declText lang e)] :=
    emitChunk_success hemit
  have hd1 : countDecl n st1.chunks = countDecl n st.chunks := by
    have := countDecl_defineMany n env lang fuel (e.args.map Prod.snd) st
    rwa [h1] at this
  have hd2 : countDecl n st2.chunks = countDecl n st1.chunks := by
    have := countDecl_defineMany n env lang fuel [e.ret] st1
    rwa [h2] at this
  rw [hc, countDecl_append, hd2, hd1]
  by_cases hn : e.name = n <;> simp [countDecl, hn]

/-- Over a successful body phase, each emitted export contributes exactly
one declaration chunk with its name. -/
theorem stepList_success_countDecl (n : String) (env : TypeEnv)
    (lang : Language) (fuel : Nat) :
    ∀ (order : List FfiExport) (st st' : DState),
      stepList (emit_function env lang fuel) order st = (st', none) →
      countDecl n st'.chunks =
        countDecl n st.chunks + (order.map FfiExport.name).count n := by
  intro order
  induction order with
  | nil =>
      intro st st' h
      have hss : st' = st := by
        have := congrArg Prod.fst h
        simpa [stepList, idStep] using this.symm
      subst hss
      simp
  | cons e rest ih =>
      intro st st' h
      obtain ⟨st1, h1, h2⟩ := seq_success h
      have hce := emit_function_success_countDecl n env lang fuel e st st1 h1
      have hcr := ih st1 st' h2
      rw [hcr, hce]
      by_cases hn : e.name = n
      · simp [hn, List.count_cons]
        omega
      · simp [hn, List.count_cons]

/-! ### The stable-mode BTreeMap: deterministic up to permutation -/

theorem charListLt_irrefl : ∀ l : List Char, charListLt l l = false
  | [] => rfl
  | a :: as => by
      simp [charListLt, lt_irrefl a, charListLt_irrefl as]

theorem charListLt_trans :
    ∀ {a b c : List Char}, charListLt a b = true → charListLt b c = true →
      charListLt a c = true
  | [], _ :: _, _ :: _, _, _ => rfl
  | x :: xs, y :: ys, z :: zs, hab, hbc => by
      simp only [charListLt] at hab hbc ⊢
      rcases lt_trichotomy x y with hxy | hxy | hxy
      · rcases lt_trichotomy y z with hyz | hyz | hyz
        · simp [lt_trans hxy hyz]
        · subst hyz
          simp [hxy]
        · simp [asymm hyz, hyz] at hbc
      · subst hxy
        rcases lt_trichotomy x z with hxz | hxz | hxz
        · simp [hxz]
        · subst hxz
          simp only [lt_irrefl, if_false] at hab hbc ⊢
          exact charListLt_trans hab hbc
        · simp [asymm hxz, hxz] at hbc
      · simp [asymm hxy, hxy] at hab

theorem charListLt_eq_of_not :
    ∀ {a b : List Char}, charListLt a b = false → charListLt b a = false →
      a = b
  | [], [], _, _ => rfl
  | [], _ :: _, h1, _ => by simp [charListLt] at h1
  | _ :: _, [], _, h2 => by simp [charListLt] at h2
  | x :: xs, y :: ys, h1, h2 => by
      simp only [charListLt] at h1 h2
      rcases lt_trichotomy x y with hxy | hxy | hxy
      · simp [hxy] at h1
      · subst hxy
        simp only [lt_irrefl, if_false] at h1 h2
        rw [charListLt_eq_of_not h1 h2]
      · simp [hxy] at h2

theorem strLt_irrefl (s : String) : strLt s s = false :=
  charListLt_irrefl s.data

theorem strLt_trans {a b c : String} (h1 : strLt a b = true)
    (h2 : strLt b c = true) : strLt a c = true :=
  charListLt_trans h1 h2

theorem strLt_eq_of_not {a b : String} (h1 : strLt a b = false)
    (h2 : strLt b a = false) : a = b := by
  cases a; cases b
  exact congrArg String.mk (charListLt_eq_of_not h1 h2)

theorem strLt_asymm {a b : String} (h1 : strLt a b = true)
    (h2 : strLt b a = true) : False := by
  have := strLt_trans h1 h2
  rw [strLt_irrefl] at this
  exact absurd this (by simp)

theorem strLt_total {a b : String} (h1 : strLt a b = false)
    (h2 : a ≠ b) : strLt b a = true := by
  cases hba : strLt b a
  · exact absurd (strLt_eq_of_not h1 hba) h2
  · rfl

/-- The keys of an association list. -/
def keysOf (m : List (String × FfiExport)) : List String :=
  m.map Prod.fst

/-- Keys strictly sorted, the `BTreeMap` representation invariant. -/
def SortedKeys (m : List (String × FfiExport)) : Prop :=
  m.Pairwise (fun p q => strLt p.1 q.1 = true)

theorem lookupKey_btInsert (m : List (String × FfiExport)) (k : String)
    (v : FfiExport) (k' : String) :
    lookupKey (btInsert m k v) k' =
      if k' = k then some v else lookupKey m k' := by
  induction m with
  | nil =>
      simp only [btInsert, lookupKey]
      by_cases h : k' = k
      · simp [h]
      · simp [h, Ne.symm h]
  | cons p rest ih =>
      rcases p with ⟨k0, v0⟩
      simp only [btInsert]
      by_cases hlt : strLt k k0 = true
      · simp only [hlt, if_true, lookupKey]
        by_cases h : k' = k
        · simp [h]
        · simp [Ne.symm h, h]
      · simp only [Bool.not_eq_true] at hlt
        rw [hlt]
        simp only [Bool.false_eq_true, if_false]
        by_cases heq : k = k0
        · subst heq
          simp only [if_true, lookupKey]
          by_cases h : k' = k
          · simp [h]
          · simp [Ne.symm h, h]
        · simp only [heq, if_false, lookupKey]
          by_cases h0 : k0 = k'
          · have hkk : ¬ k' = k := fun hh => heq (hh ▸ h0).symm
            simp [h0, hkk]
          · simp [h0, ih]

theorem mem_btInsert {p : String × FfiExport}
    {m : List (String × FfiExport)} {k : String} {v : FfiExport}
    (h : p ∈ btInsert m k v) : p = (k, v) ∨ p ∈ m := by
  induction m with
  | nil =>
      simp [btInsert] at h
      exact Or.inl h
  | cons q rest ih =>
      rcases q with ⟨k0, v0⟩
      simp only [btInsert] at h
      by_cases hlt : strLt k k0 = true
      · simp only [hlt, if_true, List.mem_cons] at h
        rcases h with h | h | h
        · exact Or.inl h
        · exact Or.inr (by simp [h])
        · exact Or.inr (List.mem_cons_of_mem _ h)
      · simp only [Bool.not_eq_true] at hlt
        rw [hlt] at h
        simp only [Bool.false_eq_true, if_false] at h
        by_cases heq : k = k0
        · subst heq
          simp only [if_true] at h
          rcases List.mem_cons.1 h with h | h
          · exact Or.inl h
          · exact Or.inr (List.mem_cons_of_mem _ h)
        · simp only [heq, if_false] at h
          rcases List.mem_cons.1 h with h | h
          · exact Or.inr (by simp [h])
          · rcases ih h with h | h
            · exact Or.inl h
            · exact Or.inr (List.mem_cons_of_mem _ h)

theorem sortedKeys_btInsert {m : List (String × FfiExport)} (k : String)
    (v : FfiExport) (h : SortedKeys m) : SortedKeys (btInsert m k v) := by
  induction m with
  | nil => simp [btInsert, SortedKeys]
  | cons q rest ih =>
      rcases q with ⟨k0, v0⟩
      rw [SortedKeys, List.pairwise_cons] at h
      obtain ⟨hhead, htail⟩ := h
      simp only [btInsert]
      by_cases hlt : strLt k k0 = true
      · simp only [hlt, if_true]
        refine List.Pairwise.cons ?_ (List.Pairwise.cons hhead htail)
        intro q hq
        rcases List.mem_cons.1 hq with h | h
        · subst h
          exact hlt
        · exact strLt_trans hlt (hhead q h)
      · simp only [Bool.not_eq_true] at hlt
        rw [hlt]
        simp only [Bool.false_eq_true, if_false]
        by_cases heq : k = k0
        · subst heq
          simp only [if_true]
          exact List.Pairwise.cons hhead htail
        · simp only [heq, if_false]
          have hk0k : strLt k0 k = true := strLt_total hlt heq
          refine List.Pairwise.cons ?_ (ih htail)
          intro q hq
          rcases mem_btInsert hq with h | h
          · rw [h]
            exact hk0k
          · exact hhead q h

/-- Left-biased choice on options (`Option::or`). -/
def optOr {α : Type} : Option α → Option α → Option α
  | some v, _ => some v
  | none, b => b

theorem optOr_none_right {α : Type} (a : Option α) : optOr a none = a := by
  cases a <;> rfl

theorem optOr_assoc {α : Type} (a b c : Option α) :
    optOr (optOr a b) c = optOr a (optOr b c) := by
  cases a <;> rfl

theorem lookupKey_append {α : Type} (l1 l2 : List (String × α))
    (k : String) :
    lookupKey (l1 ++ l2) k = optOr (lookupKey l1 k) (lookupKey l2 k) := by
  induction l1 with
  | nil => rfl
  | cons p rest ih =>
      simp only [List.cons_append, lookupKey]
      by_cases h : p.1 = k
      · simp [h, optOr]
      · simp [h, ih]

theorem lookupKey_eq_none_iff {α : Type} (l : List (String × α))
    (k : String) :
    lookupKey l k = none ↔ k ∉ l.map Prod.fst := by
  induction l with
  | nil => simp [lookupKey]
  | cons p rest ih =>
      simp only [lookupKey, List.map_cons, List.mem_cons]
      by_cases h : p.1 = k
      · simp [h]
      · simp [h, ih, Ne.symm h]

theorem lookupKey_eq_some_iff {α : Type} (l : List (String × α))
    (k : String) (v : α) (hn : (l.map Prod.fst).Nodup) :
    lookupKey l k = some v ↔ (k, v) ∈ l := by
  induction l with
  | nil => simp [lookupKey]
  | cons p rest ih =>
      rcases p with ⟨k0, v0⟩
      simp only [List.map_cons, List.nodup_cons] at hn
      simp only [lookupKey, List.mem_cons]
      by_cases h : k0 = k
      · subst h
        simp only [if_true]
        constructor
        · intro hv
          left
          simp at hv
          simp [hv]
        · intro hv
          rcases hv with hv | hv
          · simp [Prod.ext_iff] at hv
            simp [hv]
          · exact absurd (List.mem_map_of_mem Prod.fst hv) hn.1
      · simp only [h, if_false]
        rw [ih hn.2]
        constructor
        · intro hv; exact Or.inr hv
        · intro hv
          rcases hv with hv | hv
          · exact absurd (congrArg Prod.fst hv).symm h
          · exact hv

theorem lookupKey_perm {α : Type} {l1 l2 : List (String × α)}
    (hp : l1.Perm l2) (hn : (l1.map Prod.fst).Nodup) (k : String) :
    lookupKey l1 k = lookupKey l2 k := by
  have hn2 : (l2.map Prod.fst).Nodup := ((hp.map Prod.fst).nodup_iff).1 hn
  cases h1 : lookupKey l1 k with
  | none =>
      rw [lookupKey_eq_none_iff] at h1
      have h2 : k ∉ l2.map Prod.fst := fun hc =>
        h1 (((hp.map Prod.fst).mem_iff).2 hc)
      exact ((lookupKey_eq_none_iff l2 k).2 h2).symm
  | some v =>
      have hm : (k, v) ∈ l1 := (lookupKey_eq_some_iff l1 k v hn).1 h1
      exact ((lookupKey_eq_some_iff l2 k v hn2).2 (hp.mem_iff.1 hm)).symm

theorem sortedKeys_gt_head {k0 : String} {v0 : FfiExport}
    {rest : List (String × FfiExport)}
    (h : SortedKeys ((k0, v0) :: rest)) {k : String}
    (hk : k ∈ rest.map Prod.fst) : strLt k0 k = true := by
  rw [SortedKeys, List.pairwise_cons] at h
  obtain ⟨q, hq, hqk⟩ := List.mem_map.1 hk
  exact hqk ▸ h.1 q hq

theorem sortedKeys_head_not_mem {k0 : String} {v0 : FfiExport}
    {rest : List (String × FfiExport)}
    (h : SortedKeys ((k0, v0) :: rest)) : k0 ∉ rest.map Prod.fst := by
  intro hc
  have := sortedKeys_gt_head h hc
  rw [strLt_irrefl] at this
  exact absurd this (by simp)

theorem sortedKeys_ext :
    ∀ {m1 m2 : List (String × FfiExport)}, SortedKeys m1 → SortedKeys m2 →
      (∀ k, lookupKey m1 k = lookupKey m2 k) → m1 = m2
  | [], [], _, _, _ => rfl
  | [], (k2, v2) :: r2, _, _, h => by
      have := h k2
      simp [lookupKey] at this
  | (k1, v1) :: r1, [], _, _, h => by
      have := h k1
      simp [lookupKey] at this
  | (k1, v1) :: r1, (k2, v2) :: r2, h1, h2, h => by
      have hkk : k1 = k2 := by
        by_contra hne
        have e1 : lookupKey ((k2, v2) :: r2) k1 = some v1 := by
          rw [← h k1]; simp [lookupKey]
        have e2 : lookupKey ((k1, v1) :: r1) k2 = some v2 := by
          rw [h k2]; simp [lookupKey]
        rw [show lookupKey ((k2, v2) :: r2) k1 = lookupKey r2 k1 by
          simp [lookupKey, Ne.symm hne]] at e1
        rw [show lookupKey ((k1, v1) :: r1) k2 = lookupKey r1 k2 by
          simp [lookupKey, hne]] at e2
        have hm1 : k1 ∈ r2.map Prod.fst := by
          by_contra hc
          rw [← lookupKey_eq_none_iff] at hc
          rw [hc] at e1
          exact absurd e1 (by simp)
        have hm2 : k2 ∈ r1.map Prod.fst := by
          by_contra hc
          rw [← lookupKey_eq_none_iff] at hc
          rw [hc] at e2
          exact absurd e2 (by simp)
        exact strLt_asymm (sortedKeys_gt_head h1 hm2)
          (sortedKeys_gt_head h2 hm1)
      subst hkk
      have hvv : v1 = v2 := by
        have := h k1
        simpa [lookupKey] using this
      subst hvv
      have htail : ∀ k, lookupKey r1 k = lookupKey r2 k := by
        intro k
        by_cases hk : k1 = k
        · subst hk
          have e1 : lookupKey r1 k1 = none :=
            (lookupKey_eq_none_iff r1 k1).2 (sortedKeys_head_not_mem h1)
          have e2 : lookupKey r2 k1 = none :=
            (lookupKey_eq_none_iff r2 k1).2 (sortedKeys_head_not_mem h2)
          rw [e1, e2]
        · have := h k
          simpa [lookupKey, hk] using this
      have hs1 : SortedKeys r1 := (List.pairwise_cons.1 h1).2
      have hs2 : SortedKeys r2 := (List.pairwise_cons.1 h2).2
      rw [sortedKeys_ext hs1 hs2 htail]

theorem lookupKey_foldl (l : List (String × FfiExport)) :
    ∀ (m : List (String × FfiExport)) (k : String),
      lookupKey (l.foldl (fun m kv => btInsert m kv.1 kv.2) m) k =
        optOr (lookupKey l.reverse k) (lookupKey m k) := by
  induction l with
  | nil =>
      intro m k
      simp [lookupKey, optOr]
  | cons p rest ih =>
      intro m k
      simp only [List.foldl_cons, List.reverse_cons]
      rw [ih, lookupKey_append, optOr_assoc, lookupKey_btInsert]
      congr 1
      simp only [lookupKey]
      by_cases h : p.1 = k
      · simp [h, optOr]
      · simp [h, Ne.symm h, optOr]

theorem lookupKey_btOfList (l : List (String × FfiExport)) (k : String) :
    lookupKey (btOfList l) k = lookupKey l.reverse k := by
  have := lookupKey_foldl l [] k
  simpa [btOfList, lookupKey, optOr_none_right] using this

theorem sortedKeys_btOfList (l : List (String × FfiExport)) :
    SortedKeys (btOfList l) := by
  have aux : ∀ (l' m : List (String × FfiExport)), SortedKeys m →
      SortedKeys (l'.foldl (fun m kv => btInsert m kv.1 kv.2) m) := by
    intro l'
    induction l' with
    | nil => intro m h; exact h
    | cons p rest ih =>
        intro m h
        exact ih _ (sortedKeys_btInsert p.1 p.2 h)
  exact aux l [] (by simp [SortedKeys])

/-- The heart of stable-mode determinism: collecting into the `BTreeMap`
is invariant under permutation of the input pairs, provided the keys are
distinct. -/
theorem btOfList_eq_of_perm {l1 l2 : List (String × FfiExport)}
    (hp : l1.Perm l2) (hn : (l1.map Prod.fst).Nodup) :
    btOfList l1 = btOfList l2 := by
  refine sortedKeys_ext (sortedKeys_btOfList l1) (sortedKeys_btOfList l2)
    (fun k => ?_)
  rw [lookupKey_btOfList, lookupKey_btOfList]
  have hrp : l1.reverse.Perm l2.reverse :=
    (l1.reverse_perm).trans (hp.trans (l2.reverse_perm).symm)
  have hrn : (l1.reverse.map Prod.fst).Nodup := by
    rw [List.map_reverse, List.nodup_reverse]
    exact hn
  exact lookupKey_perm hrp hrn k

theorem sortedKeys_nodup {m : List (String × FfiExport)}
    (h : SortedKeys m) : (m.map Prod.fst).Nodup := by
  have hpw : (m.map Prod.fst).Pairwise (fun x y => x ≠ y) := by
    rw [List.pairwise_map]
    refine h.imp ?_
    intro p q hpq heq
    rw [heq, strLt_irrefl] at hpq
    exact absurd hpq (by simp)
  exact hpw

theorem mem_btOfList_imp (l : List (String × FfiExport))
    (P : String × FfiExport → Prop) (hl : ∀ p ∈ l, P p) :
    ∀ p ∈ btOfList l, P p := by
  have aux : ∀ (l' m : List (String × FfiExport)), (∀ p ∈ l', P p) →
      (∀ p ∈ m, P p) →
      ∀ p ∈ l'.foldl (fun m kv => btInsert m kv.1 kv.2) m, P p := by
    intro l'
    induction l' with
    | nil => intro m _ hm; exact hm
    | cons q rest ih =>
        intro m hl' hm
        refine ih _ (fun p hp => hl' p (List.mem_cons_of_mem _ hp)) ?_
        intro p hp
        rcases mem_btInsert hp with h | h
        · have := hl' q (List.mem_cons_self q rest)
          rw [h]
          simpa using this
        · exact hm p h
  exact aux l [] hl (by simp)

theorem stableOrder_map_name (exports : List FfiExport) :
    (stableOrder exports).map FfiExport.name =
      (btOfList (exports.map fun e => (e.name, e))).map Prod.fst := by
  rw [stableOrder, List.map_map]
  refine List.map_congr_left ?_
  intro p hp
  exact mem_btOfList_imp _ (fun p => p.2.name = p.1)
    (by intro q hq; rcases List.mem_map.1 hq with ⟨e, _, he⟩; rw [← he])
    p hp

theorem mem_keys_btOfList (l : List (String × FfiExport)) (k : String) :
    k ∈ (btOfList l).map Prod.fst ↔ k ∈ l.map Prod.fst := by
  constructor
  · intro hk
    by_contra hc
    have hrev : k ∉ l.reverse.map Prod.fst := by
      rw [List.map_reverse, List.mem_reverse]
      exact hc
    have hnone : lookupKey l.reverse k = none :=
      (lookupKey_eq_none_iff _ _).2 hrev
    rw [← lookupKey_btOfList] at hnone
    exact ((lookupKey_eq_none_iff _ _).1 hnone) hk
  · intro hk
    by_contra hc
    have hnone : lookupKey (btOfList l) k = none :=
      (lookupKey_eq_none_iff _ _).2 hc
    rw [lookupKey_btOfList] at hnone
    have := (lookupKey_eq_none_iff _ _).1 hnone
    rw [List.map_reverse, List.mem_reverse] at this
    exact this hk

/-- Stable-mode determinism at the ordering level. -/
theorem stableOrder_perm_eq {e1 e2 : List FfiExport} (hp : e1.Perm e2)
    (hn : (e1.map FfiExport.name).Nodup) :
    stableOrder e1 = stableOrder e2 := by
  unfold stableOrder
  rw [btOfList_eq_of_perm (hp.map _) (by simpa [List.map_map, Function.comp]
    using hn)]

theorem write_body_stable_eq (cfg : Config) (tenv : TypeEnv) (fuel : Nat)
    {e1 e2 : List FfiExport}
    (hstable : cfg.stableHeader.getD true = true)
    (hord : stableOrder e1 = stableOrder e2) :
    write_body cfg tenv e1 fuel = write_body cfg tenv e2 fuel := by
  unfold write_body
  simp only [hstable, if_true]
  rw [hord]

/-- On success, the prelude phase writes exactly one chunk. -/
theorem write_prelude_chunk {cfg : Config} {env : Env} {st st' : DState}
    (h : write_prelude cfg env st = (st', none)) :
    ∃ txt, st'.chunks = st.chunks ++ [(Tag.preludeTag, txt)] := by
  simp only [write_prelude] at h
  cases hg : guardOf cfg env with
  | error e =>
      rw [hg] at h
      exact absurd (congrArg Prod.snd h) (by simp)
  | ok g =>
      rw [hg] at h
      cases hl : cfg.language.getD Language.c with
      | c =>
          rw [hl] at h
          exact ⟨_, emitChunk_success h⟩
      | csharp =>
          rw [hl] at h
          cases h1 : pascal_cased_lib_name env with
          | error e =>
              rw [h1] at h
              exact absurd (congrArg Prod.snd h) (by simp)
          | ok ns =>
              rw [h1] at h
              cases h2 : lib_name env with
              | error e =>
                  rw [h2] at h
                  exact absurd (congrArg Prod.snd h) (by simp)
              | ok lib =>
                  rw [h2] at h
                  exact ⟨_, emitChunk_success h⟩

/-- On success, the epilogue phase writes exactly one chunk. -/
theorem write_epilogue_chunk {cfg : Config} {env : Env} {st st' : DState}
    (h : write_epilogue cfg env st = (st', none)) :
    ∃ txt, st'.chunks = st.chunks ++ [(Tag.epilogueTag, txt)] := by
  simp only [write_epilogue] at h
  cases hl : cfg.language.getD Language.c with
  | c =>
      rw [hl] at h
      cases hg : guardOf cfg env with
      | error e =>
          rw [hg] at h
          exact absurd (congrArg Prod.snd h) (by simp)
      | ok g =>
          rw [hg] at h
          exact ⟨_, emitChunk_success h⟩
  | csharp =>
      rw [hl] at h
      cases h1 : pascal_cased_lib_name env with
      | error e =>
          rw [h1] at h
          exact absurd (congrArg Prod.snd h) (by simp)
      | ok pkg =>
          rw [h1] at h
          exact ⟨_, emitChunk_success h⟩

/-! ### Concrete inputs used by witnesses and counterexamples -/

/-- A zero-argument export returning `void`. -/
def exF : FfiExport :=
  { name := "f", docs := [], args := [], ret := CTy.prim "void" none }

/-- A second zero-argument export returning `void`. -/
def exG : FfiExport :=
  { name := "g", docs := [], args := [], ret := CTy.prim "void" none }

/-- A duplicate registration of the name `f` with different contents. -/
def exF2 : FfiExport :=
  { name := "f", docs := ["dup"], args := [], ret := CTy.prim "void" none }

/-- The `rust_concat` export of the spec scenario (§8): two C-string
references in, one owned C string out. -/
def rustConcat : FfiExport :=
  { name := "rust_concat", docs := [],
    args := [("fst", CTy.ptr true (CTy.prim "char" none)),
             ("snd", CTy.ptr true (CTy.prim "char" none))],
    ret := CTy.ptr false (CTy.prim "char" none) }

/-! ### The claims -/

/-- C1: in stable mode (the default), two generation runs with identical
configuration over the same snapshot of exported-function descriptors
produce byte-identical output even when the element order of the snapshot
differs between the runs: the body phase sorts the exports by name into
an ordered map and iterates its values, so the emitted order is
independent of registration order.  (Export names are distinct, which
the spec's data model requires of the producer.) -/
theorem claim_stable_mode_deterministic (cfg : Config) (env : Env)
    (tenv : TypeEnv) (e1 e2 : List FfiExport) (fuel : Nat)
    (budget : Option Nat)
    (hstable : cfg.stableHeader.getD true = true) (hp : e1.Perm e2)
    (hn : (e1.map FfiExport.name).Nodup) :
    generate cfg env tenv e1 fuel budget =
      generate cfg env tenv e2 fuel budget := by
  unfold generate generate_with_definer
  rw [write_body_stable_eq cfg tenv fuel hstable (stableOrder_perm_eq hp hn)]

/-- C1 witness: two concrete two-element snapshots that are permutations
of each other generate identical output. -/
theorem claim_stable_mode_deterministic_witness :
    Config.stableHeader { guard := some "G" } = none ∧
    List.Perm [exF, exG] [exG, exF] ∧
    ([exF, exG].map FfiExport.name).Nodup ∧
    generate { guard := some "G" } {} [] [exF, exG] 5 none =
      generate { guard := some "G" } {} [] [exG, exF] 5 none :=
  ⟨rfl, by decide, by decide,
    claim_stable_mode_deterministic { guard := some "G" } {} [] [exF, exG]
      [exG, exF] 5 none rfl (by decide) (by decide)⟩

/-- C2: within one generation run (one fresh Definer with an empty dedup
set, as constructed by `generate`), `define_self` writes the definition
body of any composite identity at most once: once an identity is in the
ledger every further `define_self` call for it is a complete no-op, and
the chunks of any full run contain at most one definition body per
identity, regardless of how many exports reference the type and also
through cyclic pointer-indirected reference graphs (the theorem holds
for every type environment, including cyclic ones). -/
theorem claim_define_self_at_most_once :
    (∀ (env : TypeEnv) (lang : Language) (fuel : Nat) (id : String)
        (st : DState), id ∈ st.defined →
        define_self env lang fuel (CTy.composite id) st = (st, none)) ∧
    (∀ (id : String) (cfg : Config) (env : Env) (tenv : TypeEnv)
        (exports : List FfiExport) (fuel : Nat) (budget : Option Nat),
        countTypedef id
          (generate cfg env tenv exports fuel budget).1.chunks ≤ 1) :=
  ⟨define_self_noop, fun id cfg env tenv exports fuel budget =>
    generate_at_most_once id cfg env tenv exports fuel budget⟩

/-- C2 witness: over a cyclic two-composite environment referenced by two
identical exports, the run writes each body once, and a repeated
`define_self` on a ledger-marked identity is a no-op. -/
theorem claim_define_self_at_most_once_witness :
    ("A" ∈ (DState.mk [] none ["A"]).defined ∧
      define_self
        [("A", [("b", CTy.ptr false (CTy.composite "B"))]),
         ("B", [("a", CTy.ptr false (CTy.composite "A"))])]
        Language.c 7 (CTy.composite "A") (DState.mk [] none ["A"]) =
        (DState.mk [] none ["A"], none)) ∧
    countTypedef "A"
      (generate { guard := some "G" } {}
        [("A", [("b", CTy.ptr false (CTy.composite "B"))]),
         ("B", [("a", CTy.ptr false (CTy.composite "A"))])]
        [{ name := "h", docs := [],
           args := [("x", CTy.composite "A"), ("y", CTy.composite "B")],
           ret := CTy.prim "void" none },
         { name := "h2", docs := [],
           args := [("x", CTy.composite "A")],
           ret := CTy.prim "void" none }] 20 none).1.chunks ≤ 1 :=
  ⟨⟨by decide,
    claim_define_self_at_most_once.1 _ Language.c 7 "A" _ (by decide)⟩,
    claim_define_self_at_most_once.2 "A" { guard := some "G" } {} _ _ 20 none⟩

/-- C3: every successful call to `generate` (equivalently
`generate_with_definer`) performs exactly four phases, each at most once,
in the strict order banner, prelude, body, epilogue: the phase trace of
the written chunks is exactly one banner chunk, then one prelude chunk,
then some number of body chunks, then one epilogue chunk, with nothing
interleaved. -/
theorem claim_four_phases_in_order (cfg : Config) (env : Env)
    (tenv : TypeEnv) (exports : List FfiExport) (fuel : Nat)
    (budget : Option Nat)
    (h : (generate cfg env tenv exports fuel budget).2 = none) :
    ∃ k, (generate cfg env tenv exports fuel budget).1.chunks.map
        (fun c => phaseOf c.1) =
      [Phase.bannerP, Phase.preludeP] ++ List.replicate k Phase.bodyP ++
        [Phase.epilogueP] := by
  have hrun : generate_with_definer cfg env tenv exports fuel
      { chunks := [], budget := budget, defined := [] } =
      ((generate cfg env tenv exports fuel budget).1, none) := by
    rw [← h]
    rfl
  obtain ⟨st1, hban, hrest⟩ := seq_success hrun
  obtain ⟨st2, hpre, hrest2⟩ := seq_success hrest
  obtain ⟨st3, hbody, hepi⟩ := seq_success hrest2
  have hc1 : st1.chunks =
      [(Tag.bannerTag, (cfg.banner.getD defaultBanner) ++ "\n")] := by
    have := emitChunk_success hban
    simpa using this
  obtain ⟨txt2, hc2⟩ := write_prelude_chunk hpre
  obtain ⟨new3, hc3, hph3⟩ := phaseStep_write_body cfg tenv exports fuel st2
  rw [hbody] at hc3
  simp only at hc3
  obtain ⟨txt4, hc4⟩ := write_epilogue_chunk hepi
  refine ⟨new3.length, ?_⟩
  have hrep : new3.map (fun c => phaseOf c.1) =
      List.replicate new3.length Phase.bodyP := by
    refine List.eq_replicate_iff.2 ⟨by simp, ?_⟩
    intro p hp
    rcases List.mem_map.1 hp with ⟨c, hc, hcp⟩
    rw [← hcp]
    exact hph3 c hc
  rw [hc4, hc3, hc2, hc1]
  simp only [List.map_append, List.map_cons, List.map_nil, hrep]
  simp [phaseOf]

/-- C3 witness: a concrete successful run exhibits the exact phase
trace. -/
theorem claim_four_phases_in_order_witness :
    (generate { guard := some "G" } {} [] [exF] 5 none).2 = none ∧
    ∃ k, (generate { guard := some "G" } {} [] [exF] 5 none).1.chunks.map
        (fun c => phaseOf c.1) =
      [Phase.bannerP, Phase.preludeP] ++ List.replicate k Phase.bodyP ++
        [Phase.epilogueP] :=
  ⟨rfl, claim_four_phases_in_order { guard := some "G" } {} [] [exF] 5
    none rfl⟩

/-- C4: if a write to the output sink fails during any phase, the run
returns that I/O error immediately: the chunks actually written are
exactly the first `b` chunks of the untruncated run (so no later phase
and no later export writes anything after the failed write, and nothing
is retried), while a budget covering the whole output reproduces the
untruncated run exactly. -/
theorem claim_write_failure_aborts (cfg : Config) (env : Env)
    (tenv : TypeEnv) (exports : List FfiExport) (fuel : Nat) (b : Nat)
    (hok : (generate cfg env tenv exports fuel none).2 = none) :
    (b < (generate cfg env tenv exports fuel none).1.chunks.length →
      (generate cfg env tenv exports fuel (some b)).1.chunks =
        (generate cfg env tenv exports fuel none).1.chunks.take b ∧
      (generate cfg env tenv exports fuel (some b)).2 =
        some GenError.ioError) ∧
    ((generate cfg env tenv exports fuel none).1.chunks.length ≤ b →
      generate cfg env tenv exports fuel (some b) =
        ({ (generate cfg env tenv exports fuel none).1 with
            budget := some
              (b - (generate cfg env tenv exports fuel none).1.chunks.length) },
          none)) := by
  have hrun : generate_with_definer cfg env tenv exports fuel
      ((DState.mk [] none []).withBudget none) =
      ((generate cfg env tenv exports fuel none).1, none) := by
    rw [← hok]
    rfl
  obtain ⟨hbN, new, hchunks, hbeh⟩ :=
    trunc_generate_with_definer cfg env tenv exports fuel
      (DState.mk [] none [])
      (generate cfg env tenv exports fuel none).1 hrun
  simp only at hchunks
  have hnew : new = (generate cfg env tenv exports fuel none).1.chunks := by
    simpa using hchunks.symm
  subst hnew
  constructor
  · intro hlt
    have hh := (hbeh b).2 hlt
    exact ⟨by simpa using hh.1, hh.2⟩
  · intro hle
    have hh := (hbeh b).1 hle
    exact hh

/-- C4 witness: with a budget of two successful writes, a run whose full
output has four chunks stops with an I/O error right after the second
chunk; with a covering budget it reproduces the full output. -/
theorem claim_write_failure_aborts_witness :
    (generate { guard := some "G" } {} [] [exF] 5 none).2 = none ∧
    2 < (generate { guard := some "G" } {} [] [exF] 5 none).1.chunks.length ∧
    (generate { guard := some "G" } {} [] [exF] 5 (some 2)).1.chunks =
      (generate { guard := some "G" } {} [] [exF] 5 none).1.chunks.take 2 ∧
    (generate { guard := some "G" } {} [] [exF] 5 (some 2)).2 =
      some GenError.ioError := by
  refine ⟨rfl, by decide, ?_⟩
  exact (claim_write_failure_aborts { guard := some "G" } {} [] [exF] 5 2
    rfl).1 (by decide)

theorem strEndsWith_append_paren (s : String) :
    strEndsWith (s ++ " (") "(" = true := by
  unfold strEndsWith
  rw [show (s ++ " (").data = s.data ++ [' ', '('] from rfl]
  simp [List.isSuffixOf, List.reverse_append, List.isPrefixOf]

/-- C5: the `with_naming_convention` builder setting (documented as
"Sets prefix for generated functions, structs & enums") has no effect on
the generated output: `write_body` reads the setting into an unused
binding and never threads it into the backend, so the rendered name is
always the raw export name.  Concretely, with configured prefix `ffi_`
the export `f` still renders as `void f (void);`. -/
theorem claim_naming_convention_ignored :
    (∀ (cfg : Config) (nc : Option NamingConvention) (env : Env)
        (tenv : TypeEnv) (exports : List FfiExport) (fuel : Nat)
        (budget : Option Nat),
        generate { cfg with namingConvention := nc } env tenv exports
            fuel budget =
          generate cfg env tenv exports fuel budget) ∧
    ((generate
        { guard := some "G",
          namingConvention := some (NamingConvention.prefixConv "ffi_") }
        {} [] [exF] 5 none).1.chunks.map Prod.snd)[2]? =
      some "void f (void);\n\n" :=
  ⟨fun _ _ _ _ _ _ _ => rfl, rfl⟩

set_option maxRecDepth 4000 in
/-- C6 counterexample: for the `rust_concat` scenario (stable mode, C
syntax, guard `__ASGARD__`) the generated output is banner, prelude,
declaration, epilogue — but the declaration chunk spreads the parameter
list over three lines (each argument is rendered on its own indented
line), so the output does not contain the claimed single line
`char * rust_concat (char const * fst, char const * snd);`. -/
theorem claim_rust_concat_single_line_counterexample :
    (generate { guard := some "__ASGARD__" } {} [] [rustConcat] 5
        none).1.chunks.map Prod.snd =
      [defaultBanner ++ "\n",
       "#ifndef __ASGARD__\n#define __ASGARD__\n\n",
       "char * rust_concat (\n    char const * fst,\n    char const * snd);\n\n",
       "\n#endif /* __ASGARD__ */\n"] ∧
    (∀ txt ∈ (generate { guard := some "__ASGARD__" } {} [] [rustConcat]
        5 none).1.chunks.map Prod.snd,
      ¬ strEndsWith txt
          "char * rust_concat (char const * fst, char const * snd);\n" =
        true) := by
  refine ⟨by decide, by decide⟩

set_option maxRecDepth 4000 in
/-- C6 amended: for the single export
`rust_concat(fst: string-ref, snd: string-ref) -> owned-string` in stable
mode with C syntax and guard `__ASGARD__`, the output is exactly: banner,
then the prelude opening that guard, then the declaration
`char * rust_concat (` followed by the two parameters each on their own
indented line — `char const * fst,` and `char const * snd);` — then the
epilogue closing the same guard, in that byte order. -/
theorem claim_rust_concat_output :
    generate { guard := some "__ASGARD__" } {} [] [rustConcat] 5 none =
      ({ chunks :=
          [(Tag.bannerTag, defaultBanner ++ "\n"),
           (Tag.preludeTag, "#ifndef __ASGARD__\n#define __ASGARD__\n\n"),
           (Tag.declTag "rust_concat",
            "char * rust_concat (\n    char const * fst,\n    char const * snd);\n\n"),
           (Tag.epilogueTag, "\n#endif /* __ASGARD__ */\n")],
         budget := none, defined := [] }, none) := by
  decide

/-- C7: every function descriptor with zero arguments emitted in C mode
renders its parameter list with the explicit no-arguments marker `void`:
the rendered declaration is the return type wrapping
`<trimmed name> (void`, closed by `);` — so a function `f` yields a
declaration of the form `f (void)` rather than empty parentheses. -/
theorem claim_zero_arg_renders_void (n : String) (docs : List String)
    (ret : CTy) :
    declText Language.c { name := n, docs := docs, args := [], ret := ret } =
      docsText Language.c docs ++
        nameWrappingVar Language.c ret (strTrim n ++ " (" ++ "void") ++
          ");\n" ++ "\n" := by
  have hcond := strEndsWith_append_paren (strTrim n)
  unfold declText fnName
  simp only [List.foldl_nil]
  simp only [fnRetText, hcond, if_true]
  simp [String.append_assoc]

/-- C8 counterexample: with no explicit guard and the library identifier
`my-lib`, the derived guard is `__RUST_MY-LIB__`: the non-alphanumeric
dash is kept verbatim, not replaced as the claim states (which would
give `__RUST_MY_LIB__`). -/
theorem claim_guard_derivation_counterexample :
    guardOf {} { crateName := some "my-lib" } =
      Except.ok "__RUST_MY-LIB__" ∧
    "__RUST_MY-LIB__" ≠ "__RUST_MY_LIB__" ∧
    '-' ∈ "__RUST_MY-LIB__".data :=
  ⟨rfl, by decide, by decide⟩

/-- C8 amended: guard-name resolution uses the explicitly configured
value when present; otherwise the guard is `__RUST_` ++ the
ASCII-uppercased resolved library identifier ++ `__`, with no character
replacement in the derivation itself — dashes are turned into
underscores only inside library-name resolution, and only in the
`CARGO_PKG_NAME` fallback branch (the crate-name value is used
verbatim). -/
theorem claim_guard_resolution (cfg : Config) (env : Env) :
    (∀ g, cfg.guard = some g → guardOf cfg env = Except.ok g) ∧
    (cfg.guard = none →
      guardOf cfg env =
        (lib_name env).map
          (fun n => "__RUST_" ++ strAsciiUpper n ++ "__")) ∧
    (∀ c, lib_name { crateName := some c, pkgName := env.pkgName } =
      Except.ok c) ∧
    (∀ p, lib_name { crateName := none, pkgName := some p } =
      Except.ok (dashToUnderscore p)) := by
  refine ⟨?_, ?_, ?_, ?_⟩
  · intro g hg
    simp [guardOf, hg]
  · intro hg
    simp [guardOf, hg]
  · intro c
    simp [lib_name]
  · intro p
    simp [lib_name]

/-- C8 witness: an explicit guard is used verbatim; without one, the
crate name `my-lib` derives `__RUST_MY-LIB__`, and the package fallback
`a-b` resolves to `a_b`. -/
theorem claim_guard_resolution_witness :
    guardOf { guard := some "X" } { crateName := some "my-lib" } =
      Except.ok "X" ∧
    guardOf {} { crateName := some "my-lib" } =
      Except.ok ("__RUST_" ++ strAsciiUpper "my-lib" ++ "__") ∧
    lib_name { crateName := none, pkgName := some "a-b" } =
      Except.ok (dashToUnderscore "a-b") :=
  ⟨(claim_guard_resolution { guard := some "X" }
      { crateName := some "my-lib" }).1 "X" rfl,
   by
     rw [(claim_guard_resolution {} { crateName := some "my-lib" }).2.1 rfl]
     rfl,
   (claim_guard_resolution {} { crateName := none }).2.2.2 "a-b"⟩

/-- C9 counterexample: with both environment values absent (default
configuration, C mode), the run does fail with the fatal configuration
error — but only after the banner has been written: the failure is not
"before any output is produced". -/
theorem claim_libname_failure_counterexample :
    (generate {} {} [] [] 1 none).2 = some GenError.configError ∧
    (generate {} {} [] [] 1 none).1.chunks ≠ [] :=
  ⟨rfl, by decide⟩

/-- C9 amended: library-name resolution reads `CARGO_CRATE_NAME` first
and falls back to `CARGO_PKG_NAME` with dashes replaced by underscores;
when both are absent and the name is actually needed (C mode without an
explicitly configured guard), the run aborts with a fatal,
non-recoverable configuration error during the prelude phase — after
the banner chunk has already been written, and nothing after it is
produced; with an explicit guard in C mode the environment is never
consulted and the run succeeds. -/
theorem claim_libname_resolution (cfg : Config) (env : Env)
    (tenv : TypeEnv) (exports : List FfiExport) (fuel : Nat) :
    (∀ c, lib_name { crateName := some c, pkgName := env.pkgName } =
      Except.ok c) ∧
    (∀ p, lib_name { crateName := none, pkgName := some p } =
      Except.ok (dashToUnderscore p)) ∧
    (lib_name { crateName := none, pkgName := none } =
      Except.error GenError.configError) ∧
    (env.crateName = none → env.pkgName = none → cfg.guard = none →
      cfg.language.getD Language.c = Language.c →
      generate cfg env tenv exports fuel none =
        ({ chunks :=
            [(Tag.bannerTag, (cfg.banner.getD defaultBanner) ++ "\n")],
           budget := none, defined := [] }, some GenError.configError)) ∧
    (∀ g, cfg.guard = some g → cfg.language.getD Language.c = Language.c →
      (generate cfg env tenv exports fuel none).2 = none) := by
  refine ⟨fun c => by simp [lib_name], fun p => by simp [lib_name],
    by simp [lib_name], ?_, ?_⟩
  · intro hc hpk hg hl
    have henv : env = { crateName := none, pkgName := none } := by
      cases env
      simp_all
    subst henv
    simp only [generate, generate_with_definer, Step.seq, write_banner,
      emitChunk, write_prelude, guardOf, lib_name, Except.map, hg, hl,
      List.nil_append]
  · intro g hg hl
    have hgo : guardOf cfg env = Except.ok g := by simp [guardOf, hg]
    have hpre : NoFailNone (write_prelude cfg env) := by
      intro st hb
      simp only [write_prelude, hgo, hl]
      exact noFailNone_emitChunk _ _ st hb
    have hepi : NoFailNone (write_epilogue cfg env) := by
      intro st hb
      simp only [write_epilogue, hgo, hl]
      exact noFailNone_emitChunk _ _ st hb
    have hall : NoFailNone (generate_with_definer cfg env tenv exports
        fuel) :=
      noFailNone_seq (noFailNone_emitChunk _ _)
        (noFailNone_seq hpre
          (noFailNone_seq (noFailNone_write_body cfg tenv exports fuel)
            hepi))
    exact (hall { chunks := [], budget := none, defined := [] } rfl).1

/-- C9 witness: both environment values absent in default C mode abort
with the banner already written; an explicit guard makes the same run
succeed without consulting the environment. -/
theorem claim_libname_resolution_witness :
    generate {} {} [] [exF] 5 none =
      ({ chunks := [(Tag.bannerTag, defaultBanner ++ "\n")],
         budget := none, defined := [] }, some GenError.configError) ∧
    (generate { guard := some "G" } {} [] [exF] 5 none).2 = none :=
  ⟨(claim_libname_resolution {} {} [] [exF] 5).2.2.2.1 rfl rfl rfl rfl,
   (claim_libname_resolution { guard := some "G" } {} [] [exF]
     5).2.2.2.2 "G" rfl rfl⟩

/-- C10: on a snapshot containing duplicate export names, stable mode
emits exactly one declaration for each distinct name (collecting into
the name-keyed ordered map collapses duplicates), whereas unstable mode
emits one declaration per snapshot element — so the number of emitted
declarations differs between the two modes on duplicate-name input. -/
theorem claim_duplicate_names_collapse (cfg : Config) (env : Env)
    (tenv : TypeEnv) (exports : List FfiExport) (fuel : Nat)
    (budget : Option Nat) (n : String)
    (hmem : n ∈ exports.map FfiExport.name)
    (hsOK : (generate { cfg with stableHeader := some true } env tenv
      exports fuel budget).2 = none)
    (huOK : (generate { cfg with stableHeader := some false } env tenv
      exports fuel budget).2 = none) :
    countDecl n (generate { cfg with stableHeader := some true } env tenv
        exports fuel budget).1.chunks = 1 ∧
    countDecl n (generate { cfg with stableHeader := some false } env tenv
        exports fuel budget).1.chunks =
      (exports.map FfiExport.name).count n := by
  have main : ∀ (cfg' : Config) (order : List FfiExport),
      write_body cfg' tenv exports fuel =
        stepList (emit_function tenv (cfg'.language.getD Language.c) fuel)
          order →
      (generate cfg' env tenv exports fuel budget).2 = none →
      countDecl n
          (generate cfg' env tenv exports fuel budget).1.chunks =
        (order.map FfiExport.name).count n := by
    intro cfg' order hwb hok
    have hrun : generate_with_definer cfg' env tenv exports fuel
        { chunks := [], budget := budget, defined := [] } =
        ((generate cfg' env tenv exports fuel budget).1, none) := by
      rw [← hok]
      rfl
    obtain ⟨st1, hban, hrest⟩ := seq_success hrun
    obtain ⟨st2, hpre, hrest2⟩ := seq_success hrest
    obtain ⟨st3, hbody, hepi⟩ := seq_success hrest2
    have hc1 : st1.chunks =
        [(Tag.bannerTag, (cfg'.banner.getD defaultBanner) ++ "\n")] := by
      have := emitChunk_success hban
      simpa using this
    obtain ⟨txt2, hc2⟩ := write_prelude_chunk hpre
    obtain ⟨txt4, hc4⟩ := write_epilogue_chunk hepi
    rw [hwb] at hbody
    have hcount3 := stepList_success_countDecl n tenv
      (cfg'.language.getD Language.c) fuel order st2 st3 hbody
    have hc2count : countDecl n st2.chunks = 0 := by
      rw [hc2, hc1]
      simp [countDecl]
    rw [hc4, countDecl_append, hcount3, hc2count]
    simp [countDecl]
  constructor
  · have hwbS : write_body { cfg with stableHeader := some true } tenv
        exports fuel =
        stepList (emit_function tenv
          (({ cfg with stableHeader := some true } : Config).language.getD
            Language.c) fuel) (stableOrder exports) := rfl
    rw [main { cfg with stableHeader := some true } (stableOrder exports)
      hwbS hsOK]
    rw [stableOrder_map_name]
    have hnodup : ((btOfList (exports.map fun e => (e.name, e))).map
        Prod.fst).Nodup :=
      sortedKeys_nodup (sortedKeys_btOfList _)
    have hm : n ∈ (btOfList (exports.map fun e => (e.name, e))).map
        Prod.fst := by
      rw [mem_keys_btOfList]
      simpa [List.map_map, Function.comp] using hmem
    exact List.count_eq_one_of_mem hnodup hm
  · have hwbU : write_body { cfg with stableHeader := some false } tenv
        exports fuel =
        stepList (emit_function tenv
          (({ cfg with stableHeader := some false } : Config).language.getD
            Language.c) fuel) exports.reverse := rfl
    rw [main { cfg with stableHeader := some false } exports.reverse
      hwbU huOK]
    simp [List.map_reverse, List.count_reverse]

/-- C10 witness: on the snapshot `[f, f, g]` with the name `f`
registered twice, stable mode emits one declaration named `f` while
unstable mode emits two. -/
theorem claim_duplicate_names_collapse_witness :
    "f" ∈ ([exF, exF2, exG].map FfiExport.name) ∧
    countDecl "f"
      (generate { guard := some "G", stableHeader := some true } {} []
        [exF, exF2, exG] 5 none).1.chunks = 1 ∧
    countDecl "f"
      (generate { guard := some "G", stableHeader := some false } {} []
        [exF, exF2, exG] 5 none).1.chunks = 2 := by
  have h := claim_duplicate_names_collapse { guard := some "G" } {} []
    [exF, exF2, exG] 5 none "f" (by decide) rfl rfl
  refine ⟨by decide, h.1, ?_⟩
  rw [h.2]
  decide

end SaferFfi
